import Mathlib

/-
  Shallow embedding of the aurelion feature-pipeline core.

  Sources embedded:
  - src/arkin/src/pipeline.rs   (Pipeline::from_config, Pipeline::calculate,
    and the PipelineState store: insert / query / get_latest / get_range /
    get_periods, present in that file as the state-store implementation)
  - src/arkin/src/features/ta/sma.rs  (SMAFeature::calculate)
  - src/src/state/market/mod.rs (MarketState::handle_tick_update)

  Modelling conventions:
  - f64 feature values are modelled exactly as rationals plus a NaN marker
    (the verified paths never produce infinities).
  - OffsetDateTime is modelled as Int (sub-millisecond instants); Duration as Int.
  - HashMap/DashMap keyed state is modelled as total functions with a default,
    BTreeMap buckets as key-sorted association lists.
  - Fallible construction (unwrap / expect panics) is modelled with Option.
-/

namespace Arkin

abbrev FeatureId := String
abbrev NodeId := String
abbrev Instrument := String

/-- Feature values: 64-bit floats modelled as exact rationals plus NaN. -/
inductive FVal where
  | nan : FVal
  | num (q : ℚ) : FVal
deriving DecidableEq

/-- float addition with NaN propagation. -/
def fadd : FVal → FVal → FVal
  | FVal.num a, FVal.num b => FVal.num (a + b)
  | _, _ => FVal.nan

/-- float division with NaN propagation; the non-finite x/0 case is collapsed
to NaN (unreachable in the verified paths, which guard the denominator). -/
def fdiv : FVal → FVal → FVal
  | FVal.num a, FVal.num b => if b = 0 then FVal.nan else FVal.num (a / b)
  | _, _ => FVal.nan

/-- Modelled from the spec: the composite time key (timestamp, tie-breaker).
The CompositeKey type itself is not under src/ (only its uses in
pipeline.rs are); the spec defines it as a (timestamp, tie-breaker) pair,
totally ordered lexicographically, with the tie-breaker a monotonically
increasing integer assigned at insertion time. -/
structure CompositeKey where
  ts : Int
  tie : Nat
deriving DecidableEq

/-- strict lexicographic order on composite keys. -/
def keyLt (a b : CompositeKey) : Prop :=
  a.ts < b.ts ∨ (a.ts = b.ts ∧ a.tie < b.tie)

/-- non-strict lexicographic order on composite keys. -/
def keyLe (a b : CompositeKey) : Prop :=
  a.ts < b.ts ∨ (a.ts = b.ts ∧ a.tie ≤ b.tie)

instance decKeyLt : DecidableRel keyLt := fun a b => by
  unfold keyLt; infer_instance

instance decKeyLe : DecidableRel keyLe := fun a b => by
  unfold keyLe; infer_instance

/-- CompositeKey::new: the key first tried for an insertion at a timestamp
(tie-breaker at its minimum). -/
def newKey (t : Int) : CompositeKey := ⟨t, 0⟩

/-- u64::MAX, the tie-breaker used by CompositeKey::new_max. -/
def u64MAX : Nat := 18446744073709551615

/-- CompositeKey::new_max: the max-tie key at a timestamp. -/
def newMaxKey (t : Int) : CompositeKey := ⟨t, u64MAX⟩

/-- a per-(instrument, feature-id) bucket: BTreeMap<CompositeKey, f64>
modelled as a key-sorted association list. -/
abbrev Bucket := List (CompositeKey × FVal)

/-- the keys of a bucket. -/
def bKeys (b : Bucket) : List CompositeKey := b.map Prod.fst

/-- a bucket's sortedness invariant: keys strictly ascending. -/
def SortedBucket (b : Bucket) : Prop :=
  List.Pairwise (fun x y => keyLt x.1 y.1) b

/-- the `while entry.get(&composit_key).is_some() { composit_key.increment() }`
loop of PipelineState::insert: starting from tie `t`, advance past occupied
ties.  Fuel `ks.length + 1` always suffices (pigeonhole). -/
def findTieAux (ks : List CompositeKey) (ts : Int) : Nat → Nat → Nat
  | 0, t => t
  | Nat.succ fuel, t =>
      if (⟨ts, t⟩ : CompositeKey) ∈ ks then findTieAux ks ts fuel (t + 1) else t

/-- the tie-breaker assigned by PipelineState::insert for timestamp `ts`
against the existing keys `ks`: the least free tie starting from 0. -/
def findTie (ks : List CompositeKey) (ts : Int) : Nat :=
  findTieAux ks ts (ks.length + 1) 0

/-- insertion into a key-sorted association list (BTreeMap::insert for a key
not already present): place the entry before the first strictly greater key. -/
def insSorted (k : CompositeKey) (v : FVal) : Bucket → Bucket
  | [] => [(k, v)]
  | e :: rest => if keyLt k e.1 then (k, v) :: e :: rest else e :: insSorted k v rest

/-- the per-bucket core of PipelineState::insert: pick the first free
composite key at the event's timestamp and insert the value there. -/
def insertB (ts : Int) (v : FVal) (b : Bucket) : Bucket :=
  insSorted ⟨ts, findTie (bKeys b) ts⟩ v b

/-- FeatureEvent {feature-id, instrument, event-time, value}. -/
structure FeatureEvent where
  id : FeatureId
  instrument : Instrument
  event_time : Int
  value : FVal
deriving DecidableEq

/-- the events map of PipelineState:
DashMap<(Instrument, FeatureId), BTreeMap<CompositeKey, f64>> modelled as a
total function defaulting to the empty bucket. -/
abbrev Store := Instrument × FeatureId → Bucket

/-- PipelineState::insert. -/
def storeInsert (ev : FeatureEvent) (s : Store) : Store :=
  fun key =>
    if key = (ev.instrument, ev.id) then insertB ev.event_time ev.value (s key)
    else s key

/-- QueryType from the query dispatch in PipelineState::query. -/
inductive QueryType where
  | latest : QueryType
  | window (d : Int) : QueryType
  | period (n : Nat) : QueryType
deriving DecidableEq

/-- PipelineState::get_latest on a bucket: `range(..=new_max(from)).rev().take(1)`. -/
def getLatest (b : Bucket) (t : Int) : List FVal :=
  (((b.filter (fun e => decide (keyLe e.1 (newMaxKey t)))).reverse.take 1).map Prod.snd)

/-- PipelineState::get_range on a bucket:
`range(new(from - window)..new(from))`, i.e. the Rust half-open key range
[new(t - w), new(t)), in ascending key order. -/
def getRange (b : Bucket) (t w : Int) : List FVal :=
  (b.filter (fun e =>
    decide (keyLe (newKey (t - w)) e.1) && decide (keyLt e.1 (newKey t)))).map Prod.snd

/-- PipelineState::get_periods on a bucket:
`range(..new_max(from)).rev().take(periods)` then reversed back to ascending. -/
def getPeriods (b : Bucket) (t : Int) (n : Nat) : List FVal :=
  ((((b.filter (fun e => decide (keyLt e.1 (newMaxKey t)))).reverse.take n).map
      Prod.snd)).reverse

/-- PipelineState::query dispatch for one feature id. -/
def queryBucket (qt : QueryType) (b : Bucket) (t : Int) : List FVal :=
  match qt with
  | QueryType.latest => getLatest b t
  | QueryType.window d => getRange b t d
  | QueryType.period n => getPeriods b t n

/-- State::read_features(instrument, sources, event_time, data_type): a
response mapping each queried feature id to its ordered value sequence
(empty for ids that were not queried, matching an absent HashMap entry). -/
def readFeatures (st : Store) (instr : Instrument) (srcs : List NodeId)
    (t : Int) (qt : QueryType) : FeatureId → List FVal :=
  fun id => if id ∈ srcs then queryBucket qt (st (instr, id)) t else []

/-- Modelled from the spec: the frozen base identifier set of §6
(constants.rs is not under src/). -/
def BASE_IDS : List NodeId :=
  ["bid_price", "ask_price", "bid_qty", "ask_qty", "trade_price", "trade_qty",
   "mid_price"]

/-- a feature node (Box<dyn Feature>).  The Feature trait declaration
(features/mod.rs) is not under src/; per the spec's §4.2 contract a node
declares an id, source ids, a data-request shape and a pure calculation.
`outs` is the node's statically declared output feature ids (Modelled from
the spec: every FeatureConfig declares its `output` FeatureId). -/
structure FeatureNode where
  id : NodeId
  sources : List NodeId
  outs : List FeatureId
  dataType : QueryType
  calculate : (FeatureId → List FVal) → Option (List (FeatureId × FVal))

/-- first node index whose id equals the source
(`graph.node_indices().find(|i| graph[*i].id() == source)`). -/
def findProducer (nodes : List FeatureNode) (s : NodeId) : Option Nat :=
  nodes.findIdx? (fun nd => nd.id == s)

/-- the edges contributed by one target node's source list; `none` models the
`.unwrap()` panic on an unresolved source. -/
def edgesForTarget (nodes : List FeatureNode) (j : Nat) :
    List NodeId → Option (List (Nat × Nat))
  | [] => some []
  | s :: rest =>
      if s ∈ BASE_IDS then edgesForTarget nodes j rest
      else
        match findProducer nodes s with
        | none => none
        | some i => (edgesForTarget nodes j rest).map (fun es => (i, j) :: es)

/-- the source list of the node at index j (empty if out of range). -/
def sourcesAt (nodes : List FeatureNode) (j : Nat) : List NodeId :=
  match nodes[j]? with
  | some nd => nd.sources
  | none => []

/-- the automatic edge derivation loop of Pipeline::from_config, iterating
over target nodes in index order. -/
def buildEdgesAux (nodes : List FeatureNode) :
    List Nat → Option (List (Nat × Nat))
  | [] => some []
  | j :: rest =>
      match edgesForTarget nodes j (sourcesAt nodes j), buildEdgesAux nodes rest with
      | some e1, some e2 => some (e1 ++ e2)
      | _, _ => none

def buildEdges (nodes : List FeatureNode) : Option (List (Nat × Nat)) :=
  buildEdgesAux nodes (List.range nodes.length)

/-- a node of `remaining` all of whose in-edges come from outside
`remaining` (a zero in-degree node of the remaining subgraph). -/
def readyNode (edges : List (Nat × Nat)) (remaining : List Nat) : Option Nat :=
  remaining.find? (fun j => decide (∀ e ∈ edges, e.2 = j → e.1 ∉ remaining))

/-- Kahn's algorithm; models petgraph's `toposort`, which returns an order
exactly when the graph is acyclic. -/
def toposortAux (edges : List (Nat × Nat)) :
    Nat → List Nat → List Nat → Option (List Nat)
  | 0, remaining, acc => if remaining = [] then some acc.reverse else none
  | Nat.succ fuel, remaining, acc =>
      if remaining = [] then some acc.reverse
      else
        match readyNode edges remaining with
        | none => none
        | some j => toposortAux edges fuel (remaining.erase j) (j :: acc)

def toposort (n : Nat) (edges : List (Nat × Nat)) : Option (List Nat) :=
  toposortAux edges n (List.range n) []

/-- the constructed pipeline: node arena, derived edges, stored topological
order. -/
structure Pipeline where
  nodes : List FeatureNode
  edges : List (Nat × Nat)
  order : List Nat

/-- Pipeline::from_config: build nodes, derive edges (panic on unresolved
source), toposort (panic on cycle).  `none` models the construction panics:
no Pipeline value is produced. -/
def fromConfig (nodes : List FeatureNode) : Option Pipeline :=
  match buildEdges nodes with
  | none => none
  | some edges =>
      match toposort nodes.length edges with
      | none => none
      | some ord => some ⟨nodes, edges, ord⟩

/-- the write-back loop in Pipeline::calculate's worker:
`data.into_iter().for_each(..)` saving each produced (id, value) to the
store and pushing the FeatureEvent onto the result batch. -/
def applyWrites (instr : Instrument) (t : Int) :
    List (FeatureId × FVal) → Store → List FeatureEvent →
    Store × List FeatureEvent
  | [], st, evs => (st, evs)
  | (id, v) :: rest, st, evs =>
      let ev : FeatureEvent := ⟨id, instr, t, v⟩
      applyWrites instr t rest (storeInsert ev st) (evs ++ [ev])

/-- processing of one node inside Pipeline::calculate's worker: query the
store, run the feature's calculate, and on Ok write back every produced
value; on Err nothing is emitted or written (the failure is only logged). -/
def processNode (nd : FeatureNode) (instr : Instrument) (t : Int)
    (st : Store) (evs : List FeatureEvent) : Store × List FeatureEvent :=
  match nd.calculate (readFeatures st instr nd.sources t nd.dataType) with
  | some outs => applyWrites instr t outs st evs
  | none => (st, evs)

/-- one scheduled node execution, by node index. -/
def stepIx (P : Pipeline) (instr : Instrument) (t : Int) (ix : Nat)
    (acc : Store × List FeatureEvent) : Store × List FeatureEvent :=
  match P.nodes[ix]? with
  | some nd => processNode nd instr t acc.1 acc.2
  | none => acc

/-- the out-neighbors of a node
(`graph.neighbors_directed(node, petgraph::Outgoing)`), with multiplicity. -/
def outNeighbors (edges : List (Nat × Nat)) (i : Nat) : List Nat :=
  (edges.filter (fun e => e.1 == i)).map Prod.snd

/-- the neighbor update loop: decrement each out-neighbor's in-degree and
collect (in order) the neighbors whose in-degree reaches zero. -/
def decMany (degs : List Nat) : List Nat → List Nat × List Nat
  | [] => (degs, [])
  | j :: rest =>
      let d' := degs.set j (degs.getD j 0 - 1)
      let ready := if d'.getD j 0 = 0 then [j] else []
      let r := decMany d' rest
      (r.1, ready ++ r.2)

/-- the result of one Pipeline::calculate invocation: the final store, the
returned batch, and the order in which nodes were processed. -/
structure LoopRes where
  store : Store
  events : List FeatureEvent
  trace : List Nat

/-- the `while let Some(node) = queue_rx.recv()` worker loop of
Pipeline::calculate, sequentialised in FIFO channel order.  An empty queue
means `recv()` blocks forever (the senders are never dropped), i.e. the
invocation never returns: modelled as `none`.  Receiving the `None` sentinel
exits the loop and the batch is returned.  The fuel is an embedding device;
`calcFuel` below always suffices. -/
def loopRun (P : Pipeline) (instr : Instrument) (t : Int) :
    Nat → List Nat → List (Option Nat) → Store → List FeatureEvent →
    List Nat → Option LoopRes
  | 0, _, _, _, _, _ => none
  | Nat.succ _, _, [], _, _, _ => none
  | Nat.succ _, _, none :: _, st, evs, tr => some ⟨st, evs, tr⟩
  | Nat.succ fuel, degs, some ix :: rest, st, evs, tr =>
      let acc := stepIx P instr t ix (st, evs)
      let r := decMany degs (outNeighbors P.edges ix)
      let sentinel : List (Option Nat) :=
        if r.1.all (fun d => d == 0) then [none] else []
      loopRun P instr t fuel r.1 (rest ++ r.2.map some ++ sentinel)
        acc.1 acc.2 (tr ++ [ix])

/-- Step 1 of Pipeline::calculate: the in-degree array. -/
def initDegs (n : Nat) (edges : List (Nat × Nat)) : List Nat :=
  (List.range n).map (fun j => (edges.filter (fun e => e.2 == j)).length)

/-- Step 2 of Pipeline::calculate: enqueue the zero in-degree nodes in
stored topological order. -/
def seedQueue (order : List Nat) (degs : List Nat) : List (Option Nat) :=
  (order.filter (fun j => degs.getD j 0 == 0)).map some

/-- fuel that always dominates the number of loop iterations. -/
def calcFuel (P : Pipeline) : Nat :=
  2 * P.nodes.length + P.edges.length + P.order.length + 2

/-- Pipeline::calculate(instrument, event_time), sequentialised: `none`
means the invocation never returns (the worker loop blocks forever). -/
def Pipeline.calc (P : Pipeline) (instr : Instrument) (t : Int)
    (st : Store) : Option LoopRes :=
  let degs := initDegs P.nodes.length P.edges
  loopRun P instr t (calcFuel P) degs (seedQueue P.order degs) st [] []

/-- replay of a processing order: fold the node execution step over a list
of node indices.  `Pipeline.calc`'s result is characterised by the replay of
its trace; an arbitrary edge-respecting replay models one node-atomic
parallel execution of the worker pool. -/
def runSched (P : Pipeline) (instr : Instrument) (t : Int) (st : Store)
    (sched : List Nat) : Store × List FeatureEvent :=
  sched.foldl (fun acc ix => stepIx P instr t ix acc) (st, [])

/-- a schedule is edge-respecting when it is a permutation of the node
indices in which every producer precedes its consumers: exactly the
node-atomic linearisations the work queue can generate. -/
def EdgeResp (n : Nat) (edges : List (Nat × Nat)) (sched : List Nat) : Prop :=
  sched.Perm (List.range n) ∧
  ∀ e ∈ edges, sched.indexOf e.1 < sched.indexOf e.2

/-- the input declaration of an SMA config: {from, feature_id, query}. -/
structure Period where
  fromNode : NodeId
  feature_id : FeatureId
  query : QueryType

/-- FeatureDataResponse (features/mod.rs, not under src/): the queried
values keyed by feature id.  Modelled from the spec: `read_features` returns
a mapping FeatureId → ordered sequence of values, with an empty sequence per
source when there is no data. -/
structure FeatureDataResponse where
  values : FeatureId → List FVal

/-- Modelled from the spec: the FeatureDataResponse aggregation helper
called at sma.rs:47 and bound to the local variable `sum`.  features/mod.rs
is not under src/; the spec requires SMA to be the arithmetic mean (NaN when
the count is zero) and sma.rs divides this quantity by the count, so the
helper yields the sum of the queried values (`none` when there are none,
absorbed by `unwrap_or(0.)`). -/
def FeatureDataResponse.mean (r : FeatureDataResponse) (id : FeatureId) :
    Option FVal :=
  if r.values id = [] then none
  else some ((r.values id).foldl fadd (FVal.num 0))

/-- Modelled from the spec: the FeatureDataResponse count helper called at
sma.rs:48 (an f64 in the source; exactly the number of queried values). -/
def FeatureDataResponse.count (r : FeatureDataResponse) (id : FeatureId) :
    Option ℚ :=
  if r.values id = [] then none
  else some (((r.values id).length : ℚ))

/-- SMAFeatureConfig {id, input, output}. -/
structure SMAFeatureConfig where
  id : NodeId
  input : Period
  output : FeatureId

/-- SMAFeature (sma.rs).  The `data` request vector is carried by the source
struct but never read by `calculate`; it is omitted here. -/
structure SMAFeature where
  id : NodeId
  sources : List NodeId
  input : Period
  output : FeatureId

/-- SMAFeature::from_config. -/
def SMAFeature.from_config (config : SMAFeatureConfig) : SMAFeature :=
  ⟨config.id, [config.input.fromNode], config.input, config.output⟩

/-- SMAFeature::calculate (sma.rs:45-54): sum and count of the queried
input series, NaN when the count is zero, and a single-entry result map
from the output id.  Always returns Ok. -/
def SMAFeature.calculate (f : SMAFeature) (data : FeatureDataResponse) :
    Option (List (FeatureId × FVal)) :=
  let sum := (data.mean f.input.feature_id).getD (FVal.num 0)
  let count := (data.count f.input.feature_id).getD 0
  let mean := if count = 0 then FVal.nan else fdiv sum (FVal.num count)
  some [(f.output, mean)]

/-- Tick (models/market.rs is not under src/; fields Modelled from the
spec's data model §3). -/
structure Tick where
  received_time : Int
  event_time : Int
  instrument : Instrument
  tick_id : Nat
  bid_price : ℚ
  bid_qty : ℚ
  ask_price : ℚ
  ask_qty : ℚ
  source : String

/-- Trade (models/market.rs is not under src/; fields Modelled from the
spec's data model §3). -/
structure Trade where
  event_time : Int
  instrument : Instrument
  trade_id : Nat
  price : ℚ
  qty : ℚ

/-- MarketState (src/src/state/market/mod.rs): HashMap<Instrument, VecDeque>
buffers modelled as total functions defaulting to the empty buffer
(`entry(..).or_default()`). -/
structure MarketState where
  quotes : Instrument → List Tick
  trades : Instrument → List Trade
  agg_trades : Instrument → List Trade

/-- MarketState::handle_tick_update: push_back the tick onto the quote
buffer of the tick's instrument. -/
def MarketState.handle_tick_update (s : MarketState) (tick : Tick) :
    MarketState :=
  { s with
    quotes := fun i =>
      if i = tick.instrument then s.quotes i ++ [tick] else s.quotes i }

/-- in-degrees as a function of the set of already-processed nodes: the
in-degree of j counts the in-edges whose source is unprocessed. -/
def degsOf (n : Nat) (edges : List (Nat × Nat)) (tr : List Nat) : List Nat :=
  (List.range n).map (fun j =>
    (edges.filter (fun e => e.2 == j && !(tr.contains e.1))).length)

/-- the messages of a channel snapshot split as somes-then-nones: every node
message precedes every sentinel. -/
def QueueSplit (q : List (Option Nat)) : Prop :=
  ∃ a b, q = a ++ b ∧ (∀ x ∈ a, x ≠ none) ∧ ∀ x ∈ b, x = none

/-- well-formed edge list: endpoints within the node arena. -/
def EdgesWF (n : Nat) (edges : List (Nat × Nat)) : Prop :=
  ∀ e ∈ edges, e.1 < n ∧ e.2 < n

/-- a node set closed under edge predecessors. -/
def PredClosed (edges : List (Nat × Nat)) (l : List Nat) : Prop :=
  ∀ e ∈ edges, e.2 ∈ l → e.1 ∈ l

/-- the worker-loop invariant tying the in-degree array, the channel
contents and the set of processed nodes together. -/
def LoopInv (n : Nat) (edges : List (Nat × Nat)) (degs : List Nat)
    (q : List (Option Nat)) (tr : List Nat) : Prop :=
  degs = degsOf n edges tr ∧
  tr.Nodup ∧
  (∀ i ∈ tr, i < n) ∧
  PredClosed edges tr ∧
  (∀ j, j < n → j ∉ tr → (degsOf n edges tr).getD j 0 = 0 → some j ∈ q) ∧
  (∀ j, some j ∈ q → j < n ∧ j ∉ tr ∧ (degsOf n edges tr).getD j 0 = 0) ∧
  (q.filterMap id).Nodup ∧
  (none ∈ q → ∀ e ∈ edges, e.1 ∈ tr) ∧
  QueueSplit q ∧
  ((∀ j, j < n → j ∈ tr) → none ∈ q)

/-- the termination measure of the worker loop. -/
def loopPhi (n : Nat) (degs : List Nat) (q : List (Option Nat))
    (tr : List Nat) : Nat :=
  q.length + (n - tr.length) + degs.sum

/-- replay of a processing order from an arbitrary (store, batch)
accumulator. -/
def replayFrom (P : Pipeline) (instr : Instrument) (t : Int)
    (acc : Store × List FeatureEvent) (l : List Nat) :
    Store × List FeatureEvent :=
  l.foldl (fun a ix => stepIx P instr t ix a) acc

/-- a directed cycle: a nonempty edge path from `i` back to `i`. -/
def HasCycle (edges : List (Nat × Nat)) : Prop :=
  ∃ i c, List.Chain (fun a b => (a, b) ∈ edges) i (c ++ [i])

/-- the key sequence assigned by a sequence of insertions into one bucket. -/
def keyTrace : List (Int × FVal) → Bucket → List CompositeKey
  | [], _ => []
  | tv :: rest, b =>
      (⟨tv.1, findTie (bKeys b) tv.1⟩ : CompositeKey) ::
        keyTrace rest (insertB tv.1 tv.2 b)

/-- the tie-breakers present at each timestamp form an initial segment: the
shape every bucket built by PipelineState::insert has. -/
def TieComplete (b : Bucket) : Prop :=
  ∀ k ∈ bKeys b, ∀ j < k.tie, (⟨k.ts, j⟩ : CompositeKey) ∈ bKeys b

/-- the entries eligible for a Periods(n) query at `t`: composite key
strictly below the max-tie key at `t`. -/
def periodsEligible (b : Bucket) (t : Int) : Bucket :=
  b.filter (fun e => decide (keyLt e.1 (newMaxKey t)))

instance decPairKeyLt :
    DecidableRel (fun (x y : CompositeKey × FVal) => keyLt x.1 y.1) :=
  fun x y => decKeyLt x.1 y.1

instance decSortedBucket : ∀ b, Decidable (SortedBucket b) := fun b => by
  unfold SortedBucket; infer_instance

/-- a concrete two-node configuration whose first node always fails and
whose second node depends on it. -/
def errNodes : List FeatureNode :=
  [⟨"a", [], ["a"], QueryType.latest, fun _ => none⟩,
   ⟨"b", ["a"], ["b"], QueryType.latest, fun _ => some [("b", FVal.num 1)]⟩]

/-- a schedule with no backward edge: every producer precedes its
consumers.  For duplicate-free schedules this coincides with EdgeResp. -/
def SchedOk (edges : List (Nat × Nat)) (sched : List Nat) : Prop :=
  List.Pairwise (fun a b => (b, a) ∉ edges) sched

/-- a concrete three-node configuration with two writers of the feature id
"s": node 0 has node id "s", node 1 writes "s" under node id "p2", and
node 2 reads both sources with a Latest query. -/
def racyNodes : List FeatureNode :=
  [⟨"s", [], ["s"], QueryType.latest, fun _ => some [("s", FVal.num 1)]⟩,
   ⟨"p2", [], ["s"], QueryType.latest, fun _ => some [("s", FVal.num 2)]⟩,
   ⟨"c", ["s", "p2"], ["c"], QueryType.latest,
     fun resp => some [("c", (resp "s").headD FVal.nan)]⟩]

/-- the writes one node performs against a given store: the produced pairs
on Ok, nothing on Err. -/
def writesOfN (nd : FeatureNode) (instr : Instrument) (t : Int) (st : Store) :
    List (FeatureId × FVal) :=
  (nd.calculate (readFeatures st instr nd.sources t nd.dataType)).getD []

/-- the writes of a scheduled node index against a given store. -/
def writesAt (P : Pipeline) (instr : Instrument) (t : Int) (ix : Nat)
    (st : Store) : List (FeatureId × FVal) :=
  match P.nodes[ix]? with
  | some nd => writesOfN nd instr t st
  | none => []

/-- two run accumulators agree up to the order of already-emitted events. -/
def AccRel (x y : Store × List FeatureEvent) : Prop :=
  x.1 = y.1 ∧ x.2.Perm y.2

/-- the wiring discipline under which the parallel evaluation is
deterministic: every node writes only its declared output ids, distinct
nodes declare disjoint output id sets, and every read of a feature id some
node writes is covered by a graph edge from that writer.  The racyNodes
configuration violates the last two clauses. -/
def PipelineWF (P : Pipeline) : Prop :=
  (∀ (ix : Nat) (nd : FeatureNode), P.nodes[ix]? = some nd → ∀ resp ws,
    nd.calculate resp = some ws → ∀ w ∈ ws, w.1 ∈ nd.outs) ∧
  (∀ (i j : Nat) (ndi ndj : FeatureNode), i ≠ j → P.nodes[i]? = some ndi →
    P.nodes[j]? = some ndj → ∀ s, s ∈ ndi.outs → s ∉ ndj.outs) ∧
  (∀ (i j : Nat) (ndi ndj : FeatureNode), P.nodes[i]? = some ndi →
    P.nodes[j]? = some ndj → ∀ s, s ∈ ndj.sources → s ∈ ndi.outs →
    (i, j) ∈ P.edges)

/-- a concrete two-node configuration with no dependencies and disjoint
outputs: both worker interleavings are observably equivalent. -/
def detNodes : List FeatureNode :=
  [⟨"a", [], ["a"], QueryType.latest, fun _ => some [("a", FVal.num 1)]⟩,
   ⟨"b", [], ["b"], QueryType.latest, fun _ => some [("b", FVal.num 2)]⟩]

/- ------------------------------------------------------------------ -/
/- Theorems.                                                           -/
/- ------------------------------------------------------------------ -/

theorem not_keyLt_iff {a b : CompositeKey} : ¬ keyLt a b ↔ keyLe b a := by
  unfold keyLt keyLe; omega

theorem keyLt_trans {a b c : CompositeKey} :
    keyLt a b → keyLt b c → keyLt a c := by
  unfold keyLt; omega

theorem keyLt_irrefl (a : CompositeKey) : ¬ keyLt a a := by
  unfold keyLt; omega

/-- C10: handle_tick_update appends exactly the tick to the back of the
quote buffer of the tick's instrument, leaves every other instrument's
quote buffer unchanged, and leaves the trades and agg_trades maps
untouched. -/
theorem handle_tick_update_frame (s : MarketState) (tick : Tick) :
    (∀ i : Instrument,
        (s.handle_tick_update tick).quotes i =
          if i = tick.instrument then s.quotes i ++ [tick] else s.quotes i) ∧
    (s.handle_tick_update tick).trades = s.trades ∧
    (s.handle_tick_update tick).agg_trades = s.agg_trades :=
  ⟨fun _ => rfl, rfl, rfl⟩

/-- C2: a pipeline configured with zero features is constructed, but
`calculate` never returns on it: the worker loop's `queue_rx.recv()` blocks
forever, because the termination sentinel is only ever sent after a node is
processed and there is no node.  The spec requires an empty batch instead;
this is the code defect the claim trips over. -/
theorem empty_pipeline_calc_hangs :
    ∃ P, fromConfig [] = some P ∧
      ∀ (instr : Instrument) (t : Int) (st : Store),
        Pipeline.calc P instr t st = none := by
  refine ⟨⟨[], [], []⟩, rfl, fun instr t st => rfl⟩

theorem foldl_fadd_map (q : ℚ) (vs : List ℚ) :
    (vs.map FVal.num).foldl fadd (FVal.num q) = FVal.num (q + vs.sum) := by
  induction vs generalizing q with
  | nil => simp
  | cons v rest ih => simp [fadd, ih, add_assoc]

/-- C6: SMAFeature::calculate returns Ok with the single entry mapping the
output id to the arithmetic mean of the queried input values (NaN when the
count is zero), and on inputs 100, 102, 104 it yields 102. -/
theorem sma_calculate_mean (cfg : SMAFeatureConfig) :
    (∀ vs : List ℚ,
      (SMAFeature.from_config cfg).calculate
          ⟨fun id => if id = cfg.input.feature_id then vs.map FVal.num else []⟩ =
        some [(cfg.output,
          if vs.length = 0 then FVal.nan
          else FVal.num (vs.sum / vs.length))]) ∧
    (SMAFeature.from_config cfg).calculate
        ⟨fun id => if id = cfg.input.feature_id then
            [FVal.num 100, FVal.num 102, FVal.num 104] else []⟩ =
      some [(cfg.output, FVal.num 102)] := by
  have main : ∀ vs : List ℚ,
      (SMAFeature.from_config cfg).calculate
          ⟨fun id => if id = cfg.input.feature_id then vs.map FVal.num else []⟩ =
        some [(cfg.output,
          if vs.length = 0 then FVal.nan
          else FVal.num (vs.sum / vs.length))] := by
    intro vs
    unfold SMAFeature.calculate SMAFeature.from_config
    unfold FeatureDataResponse.mean FeatureDataResponse.count
    cases vs with
    | nil => simp
    | cons v rest =>
        have hne : (v :: rest).map FVal.num ≠ [] := by simp
        simp only [eq_self_iff_true, if_true, if_neg hne, Option.getD_some]
        rw [foldl_fadd_map 0 (v :: rest)]
        have hlen : ((rest.length : ℚ) + 1) ≠ 0 := by
          exact_mod_cast Nat.succ_ne_zero rest.length
        simp [fdiv, hlen, zero_add]
  refine ⟨main, ?_⟩
  have h := main [100, 102, 104]
  simp only [List.map_cons, List.map_nil] at h
  rw [h]
  norm_num



/-- C1, counterexample: a value stored exactly at timestamp `t − d` IS
returned by the Window query (the Rust key range `end_key..from_key` is
inclusive at its lower end), contradicting the claim's strict lower bound,
under which this query would return the empty list. -/
theorem window_includes_lower_bound :
    getRange (insertB 3 (FVal.num 7) []) 5 2 = [FVal.num 7] ∧
    ((insertB 3 (FVal.num 7) []).filter
        (fun e => decide ((5 : Int) - 2 < e.1.ts ∧ e.1.ts < 5))).map Prod.snd
      = [] := by
  decide

/-- C1, amended: Window(d) at `t` returns exactly the stored values whose
timestamp lies in the half-open interval [t − d, t) — lower bound
inclusive — in ascending composite-key order. -/
theorem window_boundary (b : Bucket) (t d : Int) (h : SortedBucket b) :
    getRange b t d =
      (b.filter (fun e => decide (t - d ≤ e.1.ts ∧ e.1.ts < t))).map Prod.snd ∧
    List.Pairwise keyLt
      (bKeys (b.filter (fun e => decide (t - d ≤ e.1.ts ∧ e.1.ts < t)))) := by
  constructor
  · unfold getRange
    congr 1
    apply List.filter_congr
    intro e _
    rw [Bool.and_eq_decide, decide_eq_decide]
    dsimp only [keyLe, keyLt, newKey]
    omega
  · unfold bKeys
    rw [List.pairwise_map]
    exact (h.filter _)

/-- C1 witness: the amended window theorem applied to a concrete sorted
bucket. -/
theorem window_boundary_witness :
    SortedBucket [((⟨1, 0⟩ : CompositeKey), FVal.num 5),
        ((⟨3, 0⟩ : CompositeKey), FVal.num 7)] ∧
    getRange [((⟨1, 0⟩ : CompositeKey), FVal.num 5),
        ((⟨3, 0⟩ : CompositeKey), FVal.num 7)] 4 2 =
      ([((⟨1, 0⟩ : CompositeKey), FVal.num 5),
        ((⟨3, 0⟩ : CompositeKey), FVal.num 7)].filter
          (fun e => decide ((4 : Int) - 2 ≤ e.1.ts ∧ e.1.ts < 4))).map Prod.snd :=
  ⟨by decide, (window_boundary _ 4 2 (by decide)).1⟩

/-- C7: Periods(n) at `t` returns the last n (fewer if the bucket is
smaller) values whose composite key lies strictly below the max-tie key at
`t`, in ascending key order; eligible entries below every kept entry are
exactly the dropped ones, and an entry whose timestamp is `t` itself (with
an attainable tie-breaker) is eligible. -/
theorem periods_boundary (b : Bucket) (t : Int) (n : Nat)
    (h : SortedBucket b) :
    getPeriods b t n =
      ((periodsEligible b t).drop ((periodsEligible b t).length - n)).map
        Prod.snd ∧
    (getPeriods b t n).length = min n (periodsEligible b t).length ∧
    (∀ x ∈ (periodsEligible b t).take ((periodsEligible b t).length - n),
      ∀ y ∈ (periodsEligible b t).drop ((periodsEligible b t).length - n),
        keyLt x.1 y.1) ∧
    (∀ e ∈ b, e.1.ts = t → e.1.tie < u64MAX → e ∈ periodsEligible b t) ∧
    List.Pairwise keyLt
      (bKeys ((periodsEligible b t).drop ((periodsEligible b t).length - n))) := by
  have hmain : getPeriods b t n =
      ((periodsEligible b t).drop ((periodsEligible b t).length - n)).map
        Prod.snd := by
    unfold getPeriods periodsEligible
    rw [List.take_reverse, List.map_reverse, List.reverse_reverse]
  have hpe : List.Pairwise (fun x y => keyLt x.1 y.1) (periodsEligible b t) :=
    h.filter _
  refine ⟨hmain, ?_, ?_, ?_, ?_⟩
  · rw [hmain, List.length_map, List.length_drop]
    omega
  · have hsplit := hpe
    rw [← List.take_append_drop ((periodsEligible b t).length - n)
      (periodsEligible b t)] at hsplit
    exact fun x hx y hy => ((List.pairwise_append.mp hsplit).2.2 x hx y hy)
  · intro e he hts htie
    unfold periodsEligible
    rw [List.mem_filter]
    refine ⟨he, ?_⟩
    rw [decide_eq_true_eq]
    unfold keyLt newMaxKey
    right
    exact ⟨hts, htie⟩
  · unfold bKeys
    rw [List.pairwise_map]
    exact hpe.sublist (List.drop_sublist _ _)

/-- C7 witness: the periods theorem applied to a concrete sorted bucket
with a repeated-timestamp entry at `t` itself. -/
theorem periods_boundary_witness :
    SortedBucket [((⟨1, 0⟩ : CompositeKey), FVal.num 5),
        ((⟨2, 0⟩ : CompositeKey), FVal.num 6),
        ((⟨2, 1⟩ : CompositeKey), FVal.num 7)] ∧
    getPeriods [((⟨1, 0⟩ : CompositeKey), FVal.num 5),
        ((⟨2, 0⟩ : CompositeKey), FVal.num 6),
        ((⟨2, 1⟩ : CompositeKey), FVal.num 7)] 2 2 =
      ((periodsEligible [((⟨1, 0⟩ : CompositeKey), FVal.num 5),
          ((⟨2, 0⟩ : CompositeKey), FVal.num 6),
          ((⟨2, 1⟩ : CompositeKey), FVal.num 7)] 2).drop
        ((periodsEligible [((⟨1, 0⟩ : CompositeKey), FVal.num 5),
          ((⟨2, 0⟩ : CompositeKey), FVal.num 6),
          ((⟨2, 1⟩ : CompositeKey), FVal.num 7)] 2).length - 2)).map Prod.snd :=
  ⟨by decide, (periods_boundary _ 2 2 (by decide)).1⟩

theorem length_filter_mono {α : Type} (l : List α) (p q : α → Bool)
    (h : ∀ a, p a = true → q a = true) :
    (l.filter p).length ≤ (l.filter q).length := by
  induction l with
  | nil => simp
  | cons a rest ih =>
      rw [List.filter_cons, List.filter_cons]
      by_cases hp : p a = true
      · rw [if_pos hp, if_pos (h a hp)]
        simpa using ih
      · rw [if_neg hp]
        by_cases hq : q a = true
        · rw [if_pos hq]
          simp only [List.length_cons]
          omega
        · rw [if_neg hq]
          exact ih

theorem filter_tie_length_lt (ks : List CompositeKey) (ts : Int) (t : Nat)
    (hmem : (⟨ts, t⟩ : CompositeKey) ∈ ks) :
    (ks.filter (fun k => decide (k.ts = ts ∧ t + 1 ≤ k.tie))).length <
      (ks.filter (fun k => decide (k.ts = ts ∧ t ≤ k.tie))).length := by
  induction ks with
  | nil => cases hmem
  | cons a rest ih =>
      rw [List.filter_cons, List.filter_cons]
      rcases List.mem_cons.mp hmem with heq | hrest
      · have h1 : (decide (a.ts = ts ∧ t + 1 ≤ a.tie)) = false := by
          rw [← heq]
          simp only [decide_eq_false_iff_not]
          intro hc
          omega
        have h2 : (decide (a.ts = ts ∧ t ≤ a.tie)) = true := by
          rw [← heq]
          simp
        rw [h1, h2]
        simp only [Bool.false_eq_true, if_false, if_true, List.length_cons]
        have := length_filter_mono rest
          (fun k => decide (k.ts = ts ∧ t + 1 ≤ k.tie))
          (fun k => decide (k.ts = ts ∧ t ≤ k.tie))
          (by intro k hk; simp only [decide_eq_true_eq] at hk ⊢; omega)
        omega
      · have h := ih hrest
        by_cases hq : (decide (a.ts = ts ∧ t ≤ a.tie)) = true
        · rw [if_pos hq]
          by_cases hp : (decide (a.ts = ts ∧ t + 1 ≤ a.tie)) = true
          · rw [if_pos hp]
            simp only [List.length_cons]
            omega
          · rw [if_neg hp]
            simp only [List.length_cons]
            omega
        · have hp : (decide (a.ts = ts ∧ t + 1 ≤ a.tie)) = false := by
            simp only [decide_eq_true_eq] at hq
            simp only [decide_eq_false_iff_not]
            intro hc
            exact hq ⟨hc.1, by omega⟩
          rw [if_neg hq, hp]
          simp only [Bool.false_eq_true, if_false]
          exact h

theorem findTieAux_not_mem (ks : List CompositeKey) (ts : Int) :
    ∀ fuel t,
      (ks.filter (fun k => decide (k.ts = ts ∧ t ≤ k.tie))).length < fuel →
      (⟨ts, findTieAux ks ts fuel t⟩ : CompositeKey) ∉ ks := by
  intro fuel
  induction fuel with
  | zero => intro t h; omega
  | succ f ih =>
      intro t hlt
      unfold findTieAux
      by_cases hm : (⟨ts, t⟩ : CompositeKey) ∈ ks
      · rw [if_pos hm]
        apply ih
        have := filter_tie_length_lt ks ts t hm
        omega
      · rw [if_neg hm]
        exact hm

theorem findTie_not_mem (ks : List CompositeKey) (ts : Int) :
    (⟨ts, findTie ks ts⟩ : CompositeKey) ∉ ks := by
  apply findTieAux_not_mem
  have := List.length_filter_le (fun k => decide (k.ts = ts ∧ 0 ≤ k.tie)) ks
  omega

theorem findTieAux_below (ks : List CompositeKey) (ts : Int) :
    ∀ fuel t j, (∀ j' < t, (⟨ts, j'⟩ : CompositeKey) ∈ ks) →
      j < findTieAux ks ts fuel t → (⟨ts, j⟩ : CompositeKey) ∈ ks := by
  intro fuel
  induction fuel with
  | zero =>
      intro t j hbelow hj
      unfold findTieAux at hj
      exact hbelow j hj
  | succ f ih =>
      intro t j hbelow hj
      unfold findTieAux at hj
      by_cases hm : (⟨ts, t⟩ : CompositeKey) ∈ ks
      · rw [if_pos hm] at hj
        refine ih (t + 1) j ?_ hj
        intro j' hj'
        rcases Nat.lt_succ_iff_lt_or_eq.mp hj' with h | h
        · exact hbelow j' h
        · rw [h]; exact hm
      · rw [if_neg hm] at hj
        exact hbelow j hj

theorem findTie_below (ks : List CompositeKey) (ts : Int) :
    ∀ j < findTie ks ts, (⟨ts, j⟩ : CompositeKey) ∈ ks := by
  intro j hj
  refine findTieAux_below ks ts (ks.length + 1) 0 j ?_ hj
  intro j' hj'
  omega

theorem insSorted_perm (k : CompositeKey) (v : FVal) :
    ∀ b : Bucket, (insSorted k v b).Perm ((k, v) :: b) := by
  intro b
  induction b with
  | nil => exact List.Perm.refl _
  | cons e rest ih =>
      unfold insSorted
      by_cases hlt : keyLt k e.1
      · rw [if_pos hlt]
      · rw [if_neg hlt]
        exact (ih.cons e).trans (List.Perm.swap _ _ _)

theorem bKeys_insertB (ts : Int) (v : FVal) (b : Bucket) (k : CompositeKey) :
    k ∈ bKeys (insertB ts v b) ↔
      k = ⟨ts, findTie (bKeys b) ts⟩ ∨ k ∈ bKeys b := by
  have hp := (insSorted_perm (⟨ts, findTie (bKeys b) ts⟩ : CompositeKey) v b).map
    Prod.fst
  rw [show bKeys (insertB ts v b) =
    (insSorted (⟨ts, findTie (bKeys b) ts⟩ : CompositeKey) v b).map Prod.fst from
    rfl]
  rw [hp.mem_iff]
  simp [bKeys]

theorem tieComplete_nil : TieComplete ([] : Bucket) := by
  intro k hk
  cases hk

theorem tieComplete_insertB (ts : Int) (v : FVal) (b : Bucket)
    (h : TieComplete b) : TieComplete (insertB ts v b) := by
  intro k hk j hj
  rw [bKeys_insertB] at hk
  rw [bKeys_insertB]
  rcases hk with rfl | hk
  · right
    exact findTie_below _ _ j hj
  · right
    exact h k hk j hj

theorem findTie_gt (b : Bucket) (ts : Int) (h : TieComplete b) :
    ∀ k ∈ bKeys b, k.ts = ts → k.tie < findTie (bKeys b) ts := by
  intro k hk hts
  by_contra hge
  push_neg at hge
  rcases Nat.lt_or_ge (findTie (bKeys b) ts) k.tie with hlt | hge2
  · have hmem := h k hk (findTie (bKeys b) ts) hlt
    rw [hts] at hmem
    exact findTie_not_mem _ _ hmem
  · have heq : k.tie = findTie (bKeys b) ts := by omega
    have hkey : k = (⟨ts, findTie (bKeys b) ts⟩ : CompositeKey) := by
      cases k
      simp only [CompositeKey.mk.injEq]
      exact ⟨hts, heq⟩
    rw [hkey] at hk
    exact findTie_not_mem _ _ hk

theorem keyTrace_chain :
    ∀ (evs : List (Int × FVal)) (b : Bucket), TieComplete b →
      List.Chain' (fun x y => x.1 ≤ y.1) evs →
      List.Chain' keyLt (keyTrace evs b) := by
  intro evs
  induction evs with
  | nil =>
      intro b _ _
      exact List.chain'_nil
  | cons tv rest ih =>
      intro b hb hch
      cases rest with
      | nil =>
          unfold keyTrace
          exact List.chain'_singleton _
      | cons tv2 rest2 =>
          show List.Chain' keyLt
            ((⟨tv.1, findTie (bKeys b) tv.1⟩ : CompositeKey) ::
              keyTrace (tv2 :: rest2) (insertB tv.1 tv.2 b))
          have hb1 : TieComplete (insertB tv.1 tv.2 b) :=
            tieComplete_insertB _ _ _ hb
          have htail : List.Chain' keyLt
              (keyTrace (tv2 :: rest2) (insertB tv.1 tv.2 b)) :=
            ih _ hb1 (List.Chain'.tail hch)
          have hle : tv.1 ≤ tv2.1 := (List.chain'_cons.mp hch).1
          rw [show keyTrace (tv2 :: rest2) (insertB tv.1 tv.2 b) =
            (⟨tv2.1, findTie (bKeys (insertB tv.1 tv.2 b)) tv2.1⟩ :
              CompositeKey) ::
              keyTrace rest2 (insertB tv2.1 tv2.2 (insertB tv.1 tv.2 b)) from
            rfl] at htail ⊢
          rw [List.chain'_cons]
          refine ⟨?_, htail⟩
          rcases lt_or_eq_of_le hle with hlt | heq
          · left
            exact hlt
          · have hmem : (⟨tv.1, findTie (bKeys b) tv.1⟩ : CompositeKey) ∈
                bKeys (insertB tv.1 tv.2 b) := by
              rw [bKeys_insertB]
              left
              rfl
            have := findTie_gt (insertB tv.1 tv.2 b) tv2.1 hb1 _ hmem heq
            right
            exact ⟨heq, this⟩

/-- C4, counterexample: with timestamps out of order (5 then 3) the
assigned composite keys are (5,0) then (3,0), which is not strictly
increasing in insertion order. -/
theorem insert_order_not_monotone :
    ¬ List.Chain' keyLt (keyTrace [(5, FVal.num 1), (3, FVal.num 2)] []) := by
  intro h
  have heval : keyTrace [(5, FVal.num 1), (3, FVal.num 2)] [] =
      [(⟨5, 0⟩ : CompositeKey), (⟨3, 0⟩ : CompositeKey)] := by decide
  rw [heval] at h
  have hlt := (List.chain'_cons.mp h).1
  unfold keyLt at hlt
  norm_num at hlt

/-- C4, amended: along any insertion sequence with non-decreasing
timestamps the assigned composite keys are strictly increasing; for every
insert-reachable bucket (tie-complete shape) the key assigned at a
timestamp is strictly greater than every existing key at that timestamp;
and an insert never overwrites: the new bucket is a permutation of the new
entry consed onto the old bucket.  Tie-completeness holds for the empty
bucket and is preserved by every insert. -/
theorem insert_key_monotone :
    (∀ evs : List (Int × FVal), List.Chain' (fun x y => x.1 ≤ y.1) evs →
        List.Chain' keyLt (keyTrace evs [])) ∧
    (∀ (b : Bucket) (ts : Int), TieComplete b →
        ∀ k ∈ bKeys b, k.ts = ts →
          keyLt k ⟨ts, findTie (bKeys b) ts⟩) ∧
    (∀ (ts : Int) (v : FVal) (b : Bucket),
        (insertB ts v b).Perm ((⟨ts, findTie (bKeys b) ts⟩, v) :: b)) ∧
    TieComplete ([] : Bucket) ∧
    (∀ (ts : Int) (v : FVal) (b : Bucket), TieComplete b →
        TieComplete (insertB ts v b)) := by
  refine ⟨fun evs h => keyTrace_chain evs [] tieComplete_nil h, ?_, ?_,
    tieComplete_nil, fun ts v b h => tieComplete_insertB ts v b h⟩
  · intro b ts hb k hk hts
    right
    exact ⟨hts, findTie_gt b ts hb k hk hts⟩
  · intro ts v b
    exact insSorted_perm _ v b

/-- C4 witness: strictly increasing keys along a concrete insertion
sequence with a repeated timestamp. -/
theorem insert_key_monotone_witness :
    List.Chain' keyLt
      (keyTrace [(3, FVal.num 1), (3, FVal.num 2), (4, FVal.num 3)] []) :=
  insert_key_monotone.1 _ (by norm_num [List.chain'_cons])

theorem edgesForTarget_unresolved (nodes : List FeatureNode) (j : Nat)
    (s : NodeId) :
    ∀ srcs : List NodeId, s ∈ srcs → s ∉ BASE_IDS →
      findProducer nodes s = none → edgesForTarget nodes j srcs = none := by
  intro srcs
  induction srcs with
  | nil => intro h; cases h
  | cons s' rest ih =>
      intro hmem hbase hfp
      unfold edgesForTarget
      rcases List.mem_cons.mp hmem with rfl | hrest
      · rw [if_neg hbase, hfp]
      · by_cases hb : s' ∈ BASE_IDS
        · rw [if_pos hb]
          exact ih hrest hbase hfp
        · rw [if_neg hb]
          cases hfp' : findProducer nodes s' with
          | none => rfl
          | some i =>
              rw [ih hrest hbase hfp]
              rfl

theorem buildEdgesAux_none (nodes : List FeatureNode) :
    ∀ js : List Nat, ∀ j ∈ js,
      edgesForTarget nodes j (sourcesAt nodes j) = none →
      buildEdgesAux nodes js = none := by
  intro js
  induction js with
  | nil => intro j h; cases h
  | cons j' rest ih =>
      intro j hmem hnone
      unfold buildEdgesAux
      rcases List.mem_cons.mp hmem with rfl | hrest
      · rw [hnone]
      · rw [ih j hrest hnone]
        cases edgesForTarget nodes j' (sourcesAt nodes j') <;> rfl

/-- C9: a configuration in which some node declares a source that is
neither a base identifier nor the id of any configured node makes
Pipeline::from_config fail (the `.unwrap()` on the producer lookup
panics): no Pipeline value is produced. -/
theorem unresolved_source_rejected (nodes : List FeatureNode) (j : Nat)
    (s : NodeId) (hj : j < nodes.length) (hs : s ∈ sourcesAt nodes j)
    (hbase : s ∉ BASE_IDS) (hid : ∀ nd ∈ nodes, nd.id ≠ s) :
    fromConfig nodes = none := by
  have hfp : findProducer nodes s = none := by
    unfold findProducer
    rw [List.findIdx?_eq_none_iff]
    intro nd hnd
    simp only [beq_eq_false_iff_ne, ne_eq]
    exact hid nd hnd
  have h1 : edgesForTarget nodes j (sourcesAt nodes j) = none :=
    edgesForTarget_unresolved nodes j s (sourcesAt nodes j) hs hbase hfp
  have h2 : buildEdges nodes = none := by
    unfold buildEdges
    exact buildEdgesAux_none nodes (List.range nodes.length) j
      (List.mem_range.mpr hj) h1
  unfold fromConfig
  rw [h2]

/-- C9 witness: a single node whose source "foo" is neither a base id nor
any node's id is rejected at construction. -/
theorem unresolved_source_rejected_witness :
    fromConfig [⟨"a", ["foo"], ["a"], QueryType.latest, fun _ => some []⟩] =
      none := by
  refine unresolved_source_rejected _ 0 "foo" (by decide) ?_ (by decide) ?_
  · show "foo" ∈ ["foo"]
    exact List.mem_singleton.mpr rfl
  · intro nd hnd
    rcases List.mem_singleton.mp hnd with rfl
    decide

theorem toposortAux_sound (edges : List (Nat × Nat)) (n : Nat)
    (hwf : EdgesWF n edges) :
    ∀ (fuel : Nat) (remaining acc ord : List Nat),
      toposortAux edges fuel remaining acc = some ord →
      (∀ x, x < n → x ∈ acc ∨ x ∈ remaining) →
      (∀ x ∈ acc, x ∉ remaining) →
      acc.Nodup → remaining.Nodup →
      (∀ x ∈ acc, x < n) → (∀ x ∈ remaining, x < n) →
      (∀ s, s.IsSuffix acc → PredClosed edges s) →
      (∀ x ∈ acc, (x, x) ∉ edges) →
      ord.Nodup ∧ (∀ x, x ∈ ord ↔ x < n) ∧
        (∀ s, s.IsSuffix ord.reverse → PredClosed edges s) ∧
        (∀ x ∈ ord, (x, x) ∉ edges) := by
  have finish : ∀ (acc ord : List Nat), acc.reverse = ord →
      (∀ x, x < n → x ∈ acc) → acc.Nodup → (∀ x ∈ acc, x < n) →
      (∀ s, s.IsSuffix acc → PredClosed edges s) →
      (∀ x ∈ acc, (x, x) ∉ edges) →
      ord.Nodup ∧ (∀ x, x ∈ ord ↔ x < n) ∧
        (∀ s, s.IsSuffix ord.reverse → PredClosed edges s) ∧
        (∀ x ∈ ord, (x, x) ∉ edges) := by
    intro acc ord heq hcov haccN haccLt hcl hself
    subst heq
    refine ⟨List.nodup_reverse.mpr haccN, ?_, ?_, ?_⟩
    · intro x
      rw [List.mem_reverse]
      exact ⟨fun h => haccLt x h, fun h => hcov x h⟩
    · rw [List.reverse_reverse]
      exact hcl
    · intro x hx
      rw [List.mem_reverse] at hx
      exact hself x hx
  intro fuel
  induction fuel with
  | zero =>
      intro remaining acc ord hrun hpart hdisj haccN hremN haccLt hremLt hcl
        hself
      unfold toposortAux at hrun
      by_cases hrem : remaining = []
      · rw [if_pos hrem] at hrun
        refine finish acc ord (Option.some.inj hrun) ?_ haccN haccLt hcl hself
        intro x hx
        rcases hpart x hx with h | h
        · exact h
        · rw [hrem] at h
          cases h
      · rw [if_neg hrem] at hrun
        cases hrun
  | succ f ih =>
      intro remaining acc ord hrun hpart hdisj haccN hremN haccLt hremLt hcl
        hself
      unfold toposortAux at hrun
      by_cases hrem : remaining = []
      · rw [if_pos hrem] at hrun
        refine finish acc ord (Option.some.inj hrun) ?_ haccN haccLt hcl hself
        intro x hx
        rcases hpart x hx with h | h
        · exact h
        · rw [hrem] at h
          cases h
      · rw [if_neg hrem] at hrun
        cases hready : readyNode edges remaining with
        | none =>
            rw [hready] at hrun
            cases hrun
        | some j =>
            rw [hready] at hrun
            unfold readyNode at hready
            have hjrem : j ∈ remaining := List.mem_of_find?_eq_some hready
            have hpred : ∀ e ∈ edges, e.2 = j → e.1 ∉ remaining := by
              have hdec := List.find?_some hready
              simp only [decide_eq_true_eq] at hdec
              exact hdec
            have hjacc : j ∉ acc := fun hj => hdisj j hj hjrem
            refine ih (remaining.erase j) (j :: acc) ord hrun ?_ ?_ ?_ ?_ ?_ ?_
              ?_ ?_
            · intro x hx
              rcases hpart x hx with h | h
              · exact Or.inl (List.mem_cons_of_mem j h)
              · by_cases hxj : x = j
                · exact Or.inl (hxj ▸ List.mem_cons_self j acc)
                · exact Or.inr ((List.mem_erase_of_ne hxj).mpr h)
            · intro x hx
              rcases List.mem_cons.mp hx with rfl | hxa
              · intro hmem
                exact ((hremN.mem_erase_iff).mp hmem).1 rfl
              · intro hmem
                exact hdisj x hxa (List.mem_of_mem_erase hmem)
            · exact List.nodup_cons.mpr ⟨hjacc, haccN⟩
            · exact hremN.erase j
            · intro x hx
              rcases List.mem_cons.mp hx with rfl | hxa
              · exact hremLt x hjrem
              · exact haccLt x hxa
            · intro x hx
              exact hremLt x (List.mem_of_mem_erase hx)
            · intro s hs
              rcases List.suffix_cons_iff.mp hs with rfl | hs'
              · intro e he hmem2
                rcases List.mem_cons.mp hmem2 with h2j | h2a
                · have h1n : e.1 < n := (hwf e he).1
                  have h1notrem : e.1 ∉ remaining := hpred e he h2j
                  rcases hpart e.1 h1n with h | h
                  · exact List.mem_cons_of_mem j h
                  · exact absurd h h1notrem
                · exact List.mem_cons_of_mem j
                    (hcl acc (List.suffix_refl acc) e he h2a)
              · exact hcl s hs'
            · intro x hx
              rcases List.mem_cons.mp hx with rfl | hxa
              · intro hedge
                exact hpred (x, x) hedge rfl hjrem
              · exact hself x hxa

theorem toposort_sound (n : Nat) (edges : List (Nat × Nat))
    (ord : List Nat) (hwf : EdgesWF n edges)
    (h : toposort n edges = some ord) :
    ord.Nodup ∧ (∀ x, x ∈ ord ↔ x < n) ∧
      (∀ p rest, ord = p ++ rest → PredClosed edges p) ∧
      (∀ x ∈ ord, (x, x) ∉ edges) := by
  have hmain := toposortAux_sound edges n hwf n (List.range n) [] ord h
    (fun x hx => Or.inr (List.mem_range.mpr hx))
    (fun x hx => absurd hx (List.not_mem_nil x))
    List.nodup_nil (List.nodup_range n)
    (fun x hx => absurd hx (List.not_mem_nil x))
    (fun x hx => List.mem_range.mp hx)
    (by
      intro s hs
      rw [List.suffix_nil.mp hs]
      intro e _ hmem
      cases hmem)
    (fun x hx => absurd hx (List.not_mem_nil x))
  obtain ⟨hnd, hmem, hsufcl, hself⟩ := hmain
  refine ⟨hnd, hmem, ?_, hself⟩
  intro p rest heq
  have hsfx : p.reverse.IsSuffix ord.reverse := by
    rw [heq, List.reverse_append]
    exact List.suffix_append _ _
  have hclp := hsufcl p.reverse hsfx
  intro e he h2
  have hr := hclp e he (List.mem_reverse.mpr h2)
  exact List.mem_reverse.mp hr

theorem edgesForTarget_wf (nodes : List FeatureNode) (j : Nat)
    (hj : j < nodes.length) :
    ∀ (srcs : List NodeId) (es : List (Nat × Nat)),
      edgesForTarget nodes j srcs = some es →
      ∀ e ∈ es, e.1 < nodes.length ∧ e.2 < nodes.length := by
  intro srcs
  induction srcs with
  | nil =>
      intro es hrun e he
      cases Option.some.inj hrun
      cases he
  | cons s rest ih =>
      intro es hrun e he
      unfold edgesForTarget at hrun
      by_cases hb : s ∈ BASE_IDS
      · rw [if_pos hb] at hrun
        exact ih es hrun e he
      · rw [if_neg hb] at hrun
        cases hfp : findProducer nodes s with
        | none =>
            rw [hfp] at hrun
            cases hrun
        | some i =>
            rw [hfp] at hrun
            rcases Option.map_eq_some'.mp hrun with ⟨es', hes', rfl⟩
            have hilt : i < nodes.length := by
              unfold findProducer at hfp
              rcases List.findIdx?_eq_some_iff_getElem.mp hfp with ⟨hlt, _, _⟩
              exact hlt
            rcases List.mem_cons.mp he with rfl | he'
            · exact ⟨hilt, hj⟩
            · exact ih es' hes' e he'

theorem buildEdgesAux_wf (nodes : List FeatureNode) :
    ∀ (js : List Nat) (es : List (Nat × Nat)),
      (∀ j ∈ js, j < nodes.length) →
      buildEdgesAux nodes js = some es →
      ∀ e ∈ es, e.1 < nodes.length ∧ e.2 < nodes.length := by
  intro js
  induction js with
  | nil =>
      intro es _ hrun e he
      cases Option.some.inj hrun
      cases he
  | cons j rest ih =>
      intro es hlt hrun e he
      unfold buildEdgesAux at hrun
      cases h1 : edgesForTarget nodes j (sourcesAt nodes j) with
      | none =>
          rw [h1] at hrun
          cases hrun
      | some e1 =>
          cases h2 : buildEdgesAux nodes rest with
          | none =>
              rw [h1, h2] at hrun
              cases hrun
          | some e2 =>
              rw [h1, h2] at hrun
              cases Option.some.inj hrun
              rcases List.mem_append.mp he with he1 | he2
              · exact edgesForTarget_wf nodes j
                  (hlt j (List.mem_cons_self j rest)) _ e1 h1 e he1
              · exact ih e2 (fun x hx => hlt x (List.mem_cons_of_mem j hx)) h2
                  e he2

theorem buildEdges_wf (nodes : List FeatureNode) (es : List (Nat × Nat))
    (h : buildEdges nodes = some es) : EdgesWF nodes.length es := by
  intro e he
  exact buildEdgesAux_wf nodes (List.range nodes.length) es
    (fun j hj => List.mem_range.mp hj) h e he

theorem topo_indexOf_lt (edges : List (Nat × Nat)) (ord : List Nat)
    (hnd : ord.Nodup)
    (hcl : ∀ p rest, ord = p ++ rest → PredClosed edges p)
    (hself : ∀ x ∈ ord, (x, x) ∉ edges) :
    ∀ e ∈ edges, e.2 ∈ ord → ord.indexOf e.1 < ord.indexOf e.2 := by
  rintro ⟨a, b⟩ he h2
  rcases List.mem_iff_append.mp h2 with ⟨l1, l2, rfl⟩
  have hcle : PredClosed edges (l1 ++ [b]) :=
    hcl (l1 ++ [b]) l2 (by simp)
  have hamem : a ∈ l1 ++ [b] := hcle (a, b) he (by simp)
  have hne : a ≠ b := by
    intro hq
    subst hq
    exact hself a (by simp) he
  have hal1 : a ∈ l1 := by
    rcases List.mem_append.mp hamem with h | h
    · exact h
    · exact absurd (List.mem_singleton.mp h) hne
  have hbnotl1 : b ∉ l1 := by
    intro hbl1
    have hsplit := List.nodup_append.mp (by simpa using hnd)
    exact hsplit.2.2 hbl1 (List.mem_cons_self b l2)
  rw [List.indexOf_append_of_mem hal1, List.indexOf_append_of_not_mem hbnotl1,
    List.indexOf_cons_self]
  have := List.indexOf_lt_length.mpr hal1
  omega

theorem chain_indexOf_le (edges : List (Nat × Nat)) (ord : List Nat)
    (hfwd : ∀ e ∈ edges, ord.indexOf e.1 < ord.indexOf e.2) :
    ∀ (c : List Nat) (x z : Nat),
      List.Chain (fun u v => (u, v) ∈ edges) x c →
      (x :: c).getLast? = some z → ord.indexOf x ≤ ord.indexOf z := by
  intro c
  induction c with
  | nil =>
      intro x z _ hlast
      cases Option.some.inj hlast
      exact Nat.le_refl _
  | cons y rest ih =>
      intro x z hch hlast
      rcases List.chain_cons.mp hch with ⟨hxy, htail⟩
      have h1 : ord.indexOf x < ord.indexOf y := hfwd (x, y) hxy
      have h2 : ord.indexOf y ≤ ord.indexOf z := by
        apply ih y z htail
        rw [← hlast]
        exact (List.getLast?_cons_cons).symm
      omega

/-- C8: a configuration whose derived dependency graph contains a cycle
makes Pipeline::from_config fail at the toposort step, before any
evaluation runs: no Pipeline value is produced. -/
theorem cycle_rejected (nodes : List FeatureNode) (edges : List (Nat × Nat))
    (hE : buildEdges nodes = some edges) (hcyc : HasCycle edges) :
    fromConfig nodes = none := by
  unfold fromConfig
  rw [hE]
  cases htopo : toposort nodes.length edges with
  | none =>
      show (match toposort nodes.length edges with
        | none => none
        | some ord => some (⟨nodes, edges, ord⟩ : Pipeline)) = none
      rw [htopo]
  | some ord =>
      exfalso
      have hwf := buildEdges_wf nodes edges hE
      obtain ⟨hnd, hmem, hcl, hself⟩ :=
        toposort_sound nodes.length edges ord hwf htopo
      have hfwd : ∀ e ∈ edges, ord.indexOf e.1 < ord.indexOf e.2 := by
        intro e he
        exact topo_indexOf_lt edges ord hnd hcl hself e he
          ((hmem e.2).mpr (hwf e he).2)
      obtain ⟨i, c, hch⟩ := hcyc
      rcases hq : c ++ [i] with _ | ⟨y, rest⟩
      · exact absurd hq (by simp)
      · rw [hq] at hch
        rcases List.chain_cons.mp hch with ⟨hiy, htail⟩
        have hstep : ord.indexOf i < ord.indexOf y := hfwd (i, y) hiy
        have hlast : (y :: rest).getLast? = some i := by
          have : (i :: (c ++ [i])).getLast? = some i := by
            rw [show i :: (c ++ [i]) = (i :: c) ++ [i] from rfl]
            exact List.getLast?_concat _
          rw [hq] at this
          rw [← this]
          exact (List.getLast?_cons_cons).symm
        have hle := chain_indexOf_le edges ord hfwd rest y i htail hlast
        omega

/-- C8 witness: the two-node cycle A sources=[B], B sources=[A] is rejected
at construction. -/
theorem cycle_rejected_witness :
    fromConfig
      [⟨"A", ["B"], ["A"], QueryType.latest, fun _ => some []⟩,
       ⟨"B", ["A"], ["B"], QueryType.latest, fun _ => some []⟩] = none := by
  refine cycle_rejected _ [(1, 0), (0, 1)] (by decide) ?_
  exact ⟨0, [1], List.Chain.cons (by decide)
    (List.Chain.cons (by decide) List.Chain.nil)⟩

theorem getD_eq_zero_of_ge (l : List Nat) (i : Nat) (h : l.length ≤ i) :
    l.getD i 0 = 0 := by
  rw [List.getD_eq_getElem?_getD, List.getElem?_eq_none h]
  rfl

theorem getD_set_formula (l : List Nat) (i j v : Nat) :
    (l.set i v).getD j 0 = if i = j ∧ i < l.length then v else l.getD j 0 := by
  rw [List.getD_eq_getElem?_getD, List.getD_eq_getElem?_getD,
    List.getElem?_set]
  by_cases hij : i = j
  · subst hij
    by_cases hlt : i < l.length
    · rw [if_pos rfl, if_pos hlt, if_pos ⟨rfl, hlt⟩]
      rfl
    · rw [if_pos rfl, if_neg hlt, if_neg (fun h => hlt h.2)]
      rw [List.getElem?_eq_none (by omega)]
  · rw [if_neg hij, if_neg (fun h => hij h.1)]

theorem sum_set_sub_one :
    ∀ (l : List Nat) (i : Nat), i < l.length → 1 ≤ l.getD i 0 →
      (l.set i (l.getD i 0 - 1)).sum + 1 = l.sum := by
  intro l
  induction l with
  | nil =>
      intro i h
      simp at h
  | cons a rest ih =>
      intro i hi hge
      cases i with
      | zero =>
          simp only [List.getD_cons_zero] at hge
          simp only [List.set_cons_zero, List.sum_cons, List.getD_cons_zero]
          omega
      | succ k =>
          simp only [List.getD_cons_succ] at hge
          simp only [List.set_cons_succ, List.sum_cons, List.getD_cons_succ]
          have hk : k < rest.length := by
            simp only [List.length_cons] at hi
            omega
          have := ih k hk hge
          omega

theorem decMany_length (degs : List Nat) :
    ∀ ns : List Nat, (decMany degs ns).1.length = degs.length := by
  intro ns
  induction ns generalizing degs with
  | nil => rfl
  | cons k rest ih =>
      unfold decMany
      rw [ih]
      exact List.length_set degs k _

theorem decMany_getD (ns : List Nat) :
    ∀ (degs : List Nat) (j : Nat),
      (decMany degs ns).1.getD j 0 = degs.getD j 0 - ns.count j := by
  induction ns with
  | nil =>
      intro degs j
      simp [decMany]
  | cons k rest ih =>
      intro degs j
      unfold decMany
      rw [ih, getD_set_formula]
      by_cases hkj : k = j
      · subst hkj
        rw [List.count_cons_self]
        by_cases hlt : k < degs.length
        · rw [if_pos ⟨rfl, hlt⟩]
          omega
        · rw [if_neg (fun h => hlt h.2)]
          have h0 : degs.getD k 0 = 0 := getD_eq_zero_of_ge degs k (by omega)
          omega
      · rw [if_neg (fun h => hkj h.1)]
        rw [List.count_cons_of_ne (fun h => hkj h.symm)]

theorem decMany_ready_length (degs : List Nat) :
    ∀ ns : List Nat, (decMany degs ns).2.length ≤ ns.length := by
  intro ns
  induction ns generalizing degs with
  | nil => simp [decMany]
  | cons k rest ih =>
      unfold decMany
      simp only [List.length_append, List.length_cons]
      have := ih (degs.set k (degs.getD k 0 - 1))
      by_cases h : (degs.set k (degs.getD k 0 - 1)).getD k 0 = 0
      · rw [if_pos h]
        simp only [List.length_cons, List.length_nil]
        omega
      · rw [if_neg h]
        simp only [List.length_nil]
        omega

theorem decMany_sum (ns : List Nat) :
    ∀ degs : List Nat, (∀ j, ns.count j ≤ degs.getD j 0) →
      (decMany degs ns).1.sum + ns.length = degs.sum := by
  induction ns with
  | nil =>
      intro degs _
      simp [decMany]
  | cons k rest ih =>
      intro degs hcap
      have hk1 : 1 ≤ degs.getD k 0 := by
        have := hcap k
        rw [List.count_cons_self] at this
        omega
      have hklt : k < degs.length := by
        by_contra hge
        have h0 : degs.getD k 0 = 0 := getD_eq_zero_of_ge degs k (by omega)
        omega
      unfold decMany
      have hcap' : ∀ j, rest.count j ≤
          (degs.set k (degs.getD k 0 - 1)).getD j 0 := by
        intro j
        rw [getD_set_formula]
        by_cases hkj : k = j
        · subst hkj
          rw [if_pos ⟨rfl, hklt⟩]
          have := hcap k
          rw [List.count_cons_self] at this
          omega
        · rw [if_neg (fun h => hkj h.1)]
          have := hcap j
          rw [List.count_cons_of_ne (fun h => hkj h.symm)] at this
          exact this
      have hrec := ih (degs.set k (degs.getD k 0 - 1)) hcap'
      have hsum := sum_set_sub_one degs k hklt hk1
      simp only [List.length_cons]
      omega

theorem decMany_ready_count (ns : List Nat) :
    ∀ degs : List Nat, (∀ j, ns.count j ≤ degs.getD j 0) →
      ∀ j, (decMany degs ns).2.count j =
        if j ∈ ns ∧ (decMany degs ns).1.getD j 0 = 0 then 1 else 0 := by
  induction ns with
  | nil =>
      intro degs _ j
      simp [decMany]
  | cons k rest ih =>
      intro degs hcap j
      have hk1 : 1 ≤ degs.getD k 0 := by
        have := hcap k
        rw [List.count_cons_self] at this
        omega
      have hklt : k < degs.length := by
        by_contra hge
        have h0 : degs.getD k 0 = 0 := getD_eq_zero_of_ge degs k (by omega)
        omega
      have hcap' : ∀ j', rest.count j' ≤
          (degs.set k (degs.getD k 0 - 1)).getD j' 0 := by
        intro j'
        rw [getD_set_formula]
        by_cases hkj : k = j'
        · subst hkj
          rw [if_pos ⟨rfl, hklt⟩]
          have := hcap k
          rw [List.count_cons_self] at this
          omega
        · rw [if_neg (fun h => hkj h.1)]
          have := hcap j'
          rw [List.count_cons_of_ne (fun h => hkj h.symm)] at this
          exact this
      have hF : (decMany degs (k :: rest)).1 =
          (decMany (degs.set k (degs.getD k 0 - 1)) rest).1 := rfl
      have hihj := ih (degs.set k (degs.getD k 0 - 1)) hcap' j
      have hstep : (decMany degs (k :: rest)).2 =
          (if (degs.set k (degs.getD k 0 - 1)).getD k 0 = 0 then [k] else []) ++
            (decMany (degs.set k (degs.getD k 0 - 1)) rest).2 := rfl
      rw [hstep, List.count_append, hihj, hF]
      by_cases hkj : k = j
      · subst hkj
        have hdk : (degs.set k (degs.getD k 0 - 1)).getD k 0 =
            degs.getD k 0 - 1 := by
          rw [getD_set_formula, if_pos ⟨rfl, hklt⟩]
        have hFk : (decMany (degs.set k (degs.getD k 0 - 1)) rest).1.getD k 0 =
            (degs.getD k 0 - 1) - rest.count k := by
          rw [decMany_getD, hdk]
        by_cases hz : (degs.set k (degs.getD k 0 - 1)).getD k 0 = 0
        · rw [if_pos hz, List.count_cons_self, List.count_nil]
          have hcz : rest.count k = 0 := by
            have := hcap' k
            rw [hz] at this
            omega
          have hknr : k ∉ rest := List.count_eq_zero.mp hcz
          rw [if_neg (fun hc => hknr hc.1)]
          rw [if_pos ⟨List.mem_cons_self k rest, by
            rw [hFk]
            rw [hdk] at hz
            omega⟩]
        · rw [if_neg hz, List.count_nil]
          rw [hdk] at hz
          by_cases hFz : (decMany (degs.set k (degs.getD k 0 - 1)) rest).1.getD
              k 0 = 0
          · have hkr : k ∈ rest := by
              by_contra hknr
              have hcz : rest.count k = 0 :=
                List.count_eq_zero.mpr hknr
              rw [hFk, hcz] at hFz
              omega
            rw [if_pos ⟨hkr, hFz⟩, if_pos ⟨List.mem_cons_self k rest, hFz⟩]
          · rw [if_neg (fun hc => hFz hc.2), if_neg (fun hc => hFz hc.2)]
      · have hhead : (if (degs.set k (degs.getD k 0 - 1)).getD k 0 = 0
            then [k] else []).count j = 0 := by
          by_cases hz : (degs.set k (degs.getD k 0 - 1)).getD k 0 = 0
          · rw [if_pos hz]
            rw [List.count_cons_of_ne (fun h => hkj h.symm), List.count_nil]
          · rw [if_neg hz, List.count_nil]
        rw [hhead]
        have hmemiff : (j ∈ k :: rest) ↔ j ∈ rest := by
          rw [List.mem_cons]
          exact ⟨fun h => h.resolve_left (fun h' => hkj h'.symm), Or.inr⟩
        by_cases hC : j ∈ rest ∧
            (decMany (degs.set k (degs.getD k 0 - 1)) rest).1.getD j 0 = 0
        · rw [if_pos hC, if_pos ⟨hmemiff.mpr hC.1, hC.2⟩]
        · rw [if_neg hC, if_neg (fun hc => hC ⟨hmemiff.mp hc.1, hc.2⟩)]

theorem outNeighbors_count (edges : List (Nat × Nat)) (ix j : Nat) :
    (outNeighbors edges ix).count j =
      (edges.filter (fun e => e.1 == ix && e.2 == j)).length := by
  unfold outNeighbors
  rw [List.count_eq_countP, List.countP_map, List.countP_filter,
    ← List.countP_eq_length_filter]
  apply List.countP_congr
  intro e _
  show ((e.2 == j) && (e.1 == ix)) = true ↔ ((e.1 == ix) && (e.2 == j)) = true
  rw [Bool.and_comm]

theorem degsOf_length (n : Nat) (edges : List (Nat × Nat)) (tr : List Nat) :
    (degsOf n edges tr).length = n := by
  unfold degsOf
  rw [List.length_map, List.length_range]

theorem degsOf_getD (n : Nat) (edges : List (Nat × Nat)) (tr : List Nat)
    (j : Nat) (hj : j < n) :
    (degsOf n edges tr).getD j 0 =
      (edges.filter (fun e => e.2 == j && !(tr.contains e.1))).length := by
  unfold degsOf
  rw [List.getD_eq_getElem?_getD, List.getElem?_map, List.getElem?_range hj]
  rfl

theorem length_filter_or_disjoint {α : Type} (l : List α) (f f' g : α → Bool)
    (h : ∀ a ∈ l, f a = (f' a || g a) ∧ ¬(f' a = true ∧ g a = true)) :
    (l.filter f).length = (l.filter f').length + (l.filter g).length := by
  induction l with
  | nil => rfl
  | cons a rest ih =>
      have ha := h a (List.mem_cons_self a rest)
      have hrest := ih (fun x hx => h x (List.mem_cons_of_mem a hx))
      rw [List.filter_cons, List.filter_cons, List.filter_cons]
      cases hf' : f' a <;> cases hg : g a
      · have hf : f a = false := by simp [ha.1, hf', hg]
        simp only [hf, hf', hg, Bool.false_eq_true, if_false]
        exact hrest
      · have hf : f a = true := by simp [ha.1, hf', hg]
        simp only [hf, hf', hg, Bool.false_eq_true, if_false, if_true,
          List.length_cons]
        omega
      · have hf : f a = true := by simp [ha.1, hf', hg]
        simp only [hf, hf', hg, Bool.false_eq_true, if_false, if_true,
          List.length_cons]
        omega
      · exact absurd ⟨hf', hg⟩ ha.2

theorem contains_eq_decide_mem (l : List Nat) (a : Nat) :
    l.contains a = decide (a ∈ l) :=
  List.elem_eq_mem a l

theorem degsOf_append (n : Nat) (edges : List (Nat × Nat)) (tr : List Nat)
    (ix : Nat) (hix : ix ∉ tr) (j : Nat) (hj : j < n) :
    (degsOf n edges (tr ++ [ix])).getD j 0 =
      (degsOf n edges tr).getD j 0 - (outNeighbors edges ix).count j := by
  rw [degsOf_getD _ _ _ _ hj, degsOf_getD _ _ _ _ hj, outNeighbors_count]
  have hsplit := length_filter_or_disjoint edges
    (fun e => e.2 == j && !(tr.contains e.1))
    (fun e => e.2 == j && !((tr ++ [ix]).contains e.1))
    (fun e => e.1 == ix && e.2 == j)
    (by
      intro e _
      constructor
      · by_cases hA : e.2 = j <;> by_cases hB : e.1 ∈ tr <;>
          by_cases hC : e.1 = ix
        · exact absurd (hC ▸ hB) hix
        all_goals
          simp [contains_eq_decide_mem, hA, hB, hC, hix]
      · rintro ⟨h1, h2⟩
        simp only [Bool.and_eq_true, beq_iff_eq, Bool.not_eq_true'] at h1 h2
        rw [contains_eq_decide_mem] at h1
        rw [h2.1] at h1
        have : ix ∈ tr ++ [ix] := by simp
        rw [decide_eq_false_iff_not] at h1
        exact h1.2 this)
  omega

theorem outNeighbors_cap (n : Nat) (edges : List (Nat × Nat)) (tr : List Nat)
    (ix : Nat) (hix : ix ∉ tr) (hwf : EdgesWF n edges) (j : Nat) :
    (outNeighbors edges ix).count j ≤ (degsOf n edges tr).getD j 0 := by
  rw [outNeighbors_count]
  by_cases hj : j < n
  · rw [degsOf_getD _ _ _ _ hj]
    apply length_filter_mono
    intro e he
    simp only [Bool.and_eq_true, beq_iff_eq] at he
    simp only [Bool.and_eq_true, beq_iff_eq, Bool.not_eq_true']
    refine ⟨he.2, ?_⟩
    rw [contains_eq_decide_mem, decide_eq_false_iff_not]
    rw [he.1]
    exact hix
  · have hz : (degsOf n edges tr).getD j 0 = 0 :=
      getD_eq_zero_of_ge _ _ (by rw [degsOf_length]; omega)
    rw [hz]
    have : edges.filter (fun e => e.1 == ix && e.2 == j) = [] := by
      rw [List.filter_eq_nil_iff]
      intro e he hc
      simp only [Bool.and_eq_true, beq_iff_eq] at hc
      exact hj (hc.2 ▸ (hwf e he).2)
    rw [this]
    exact Nat.le_refl 0

theorem degsOf_all_zero_iff (n : Nat) (edges : List (Nat × Nat))
    (tr : List Nat) (hwf : EdgesWF n edges) :
    ((degsOf n edges tr).all (fun d => d == 0) = true) ↔
      ∀ e ∈ edges, e.1 ∈ tr := by
  rw [List.all_eq_true]
  constructor
  · intro h e he
    have hmem : (edges.filter
        (fun e' => e'.2 == e.2 && !(tr.contains e'.1))).length ∈
          degsOf n edges tr := by
      unfold degsOf
      exact List.mem_map_of_mem _ (List.mem_range.mpr (hwf e he).2)
    have h2 := h _ hmem
    rw [beq_iff_eq] at h2
    have hnil : edges.filter (fun e' => e'.2 == e.2 && !(tr.contains e'.1)) =
        [] := List.eq_nil_of_length_eq_zero h2
    have hpe := List.filter_eq_nil_iff.mp hnil e he
    simp only [Bool.and_eq_true, beq_iff_eq, Bool.not_eq_true',
      contains_eq_decide_mem, decide_eq_false_iff_not, not_and] at hpe
    by_contra hns
    exact (hpe trivial) hns
  · intro h d hd
    unfold degsOf at hd
    rcases List.mem_map.mp hd with ⟨j, _, rfl⟩
    rw [beq_iff_eq]
    have : edges.filter (fun e => e.2 == j && !(tr.contains e.1)) = [] := by
      rw [List.filter_eq_nil_iff]
      intro e he hc
      simp only [Bool.and_eq_true, beq_iff_eq, Bool.not_eq_true',
        contains_eq_decide_mem, decide_eq_false_iff_not] at hc
      exact hc.2 (h e he)
    rw [this]
    rfl

theorem degsOf_zero_of_sources (n : Nat) (edges : List (Nat × Nat))
    (tr : List Nat) (h : ∀ e ∈ edges, e.1 ∈ tr) (j : Nat) :
    (degsOf n edges tr).getD j 0 = 0 := by
  by_cases hj : j < n
  · rw [degsOf_getD _ _ _ _ hj]
    have : edges.filter (fun e => e.2 == j && !(tr.contains e.1)) = [] := by
      rw [List.filter_eq_nil_iff]
      intro e he hc
      simp only [Bool.and_eq_true, beq_iff_eq, Bool.not_eq_true',
        contains_eq_decide_mem, decide_eq_false_iff_not] at hc
      exact hc.2 (h e he)
    rw [this]
    rfl
  · exact getD_eq_zero_of_ge _ _ (by rw [degsOf_length]; omega)

theorem degsOf_pos_of_edge (n : Nat) (edges : List (Nat × Nat))
    (tr : List Nat) (e : Nat × Nat) (he : e ∈ edges) (h1 : e.1 ∉ tr)
    (hj : e.2 < n) : 0 < (degsOf n edges tr).getD e.2 0 := by
  rw [degsOf_getD _ _ _ _ hj]
  have : e ∈ edges.filter (fun e' => e'.2 == e.2 && !(tr.contains e'.1)) := by
    rw [List.mem_filter]
    refine ⟨he, ?_⟩
    simp only [Bool.and_eq_true, beq_iff_eq, Bool.not_eq_true',
      contains_eq_decide_mem, decide_eq_false_iff_not]
    exact ⟨trivial, h1⟩
  exact List.length_pos.mpr (fun hq => by rw [hq] at this; cases this)

theorem exists_min_indexOf (f : Nat → Nat) :
    ∀ l : List Nat, l ≠ [] → ∃ j ∈ l, ∀ i ∈ l, f j ≤ f i := by
  intro l
  induction l with
  | nil => intro h; exact absurd rfl h
  | cons a rest ih =>
      intro _
      by_cases hrest : rest = []
      · subst hrest
        refine ⟨a, List.mem_cons_self a [], ?_⟩
        intro i hi
        rcases List.mem_singleton.mp hi with rfl
        exact Nat.le_refl _
      · rcases ih hrest with ⟨j, hj, hmin⟩
        by_cases hle : f a ≤ f j
        · refine ⟨a, List.mem_cons_self a rest, ?_⟩
          intro i hi
          rcases List.mem_cons.mp hi with rfl | hi'
          · exact Nat.le_refl _
          · exact Nat.le_trans hle (hmin i hi')
        · refine ⟨j, List.mem_cons_of_mem a hj, ?_⟩
          intro i hi
          rcases List.mem_cons.mp hi with rfl | hi'
          · omega
          · exact hmin i hi'

theorem sources_mem_of_deg_zero (n : Nat) (edges : List (Nat × Nat))
    (tr : List Nat) (j : Nat) (hj : j < n)
    (h : (degsOf n edges tr).getD j 0 = 0) :
    ∀ e ∈ edges, e.2 = j → e.1 ∈ tr := by
  intro e he h2
  rw [degsOf_getD _ _ _ _ hj] at h
  have hnil := List.eq_nil_of_length_eq_zero h
  have hpe := List.filter_eq_nil_iff.mp hnil e he
  simp only [Bool.and_eq_true, beq_iff_eq, Bool.not_eq_true',
    contains_eq_decide_mem, decide_eq_false_iff_not, not_and] at hpe
  by_contra hns
  exact hpe h2 hns

theorem mem_outNeighbors (edges : List (Nat × Nat)) (ix j : Nat) :
    j ∈ outNeighbors edges ix ↔ ∃ e ∈ edges, e.1 = ix ∧ e.2 = j := by
  unfold outNeighbors
  rw [List.mem_map]
  constructor
  · rintro ⟨e, hmem, rfl⟩
    rcases List.mem_filter.mp hmem with ⟨he, hp⟩
    rw [beq_iff_eq] at hp
    exact ⟨e, he, hp, rfl⟩
  · rintro ⟨e, he, h1, h2⟩
    refine ⟨e, ?_, h2⟩
    rw [List.mem_filter]
    exact ⟨he, by rw [beq_iff_eq]; exact h1⟩

theorem length_le_of_nodup_lt (l : List Nat) (n : Nat) (hN : l.Nodup)
    (hlt : ∀ x ∈ l, x < n) : l.length ≤ n := by
  have hsub : l ⊆ List.range n := fun x hx => List.mem_range.mpr (hlt x hx)
  have := (hN.subperm hsub).length_le
  rwa [List.length_range] at this

theorem exists_ready_unprocessed (n : Nat) (edges : List (Nat × Nat))
    (ord : List Nat) (tr : List Nat)
    (hOfwd : ∀ e ∈ edges, ord.indexOf e.1 < ord.indexOf e.2)
    (hwf : EdgesWF n edges)
    (j0 : Nat) (hj0 : j0 < n) (hj0tr : j0 ∉ tr) :
    ∃ j, j < n ∧ j ∉ tr ∧ (degsOf n edges tr).getD j 0 = 0 := by
  have hUmem : j0 ∈ (List.range n).filter (fun x => decide (x ∉ tr)) := by
    rw [List.mem_filter]
    exact ⟨List.mem_range.mpr hj0, by rw [decide_eq_true_eq]; exact hj0tr⟩
  obtain ⟨j, hjU, hmin⟩ := exists_min_indexOf (fun x => ord.indexOf x)
    ((List.range n).filter (fun x => decide (x ∉ tr)))
    (List.ne_nil_of_mem hUmem)
  rcases List.mem_filter.mp hjU with ⟨hjr, hjd⟩
  rw [decide_eq_true_eq] at hjd
  have hjn := List.mem_range.mp hjr
  refine ⟨j, hjn, hjd, ?_⟩
  rw [degsOf_getD _ _ _ _ hjn]
  have : edges.filter (fun e => e.2 == j && !(tr.contains e.1)) = [] := by
    rw [List.filter_eq_nil_iff]
    intro e he hc
    simp only [Bool.and_eq_true, beq_iff_eq, Bool.not_eq_true',
      contains_eq_decide_mem, decide_eq_false_iff_not] at hc
    have h1n : e.1 < n := (hwf e he).1
    have h1U : e.1 ∈ (List.range n).filter (fun x => decide (x ∉ tr)) := by
      rw [List.mem_filter]
      exact ⟨List.mem_range.mpr h1n, by rw [decide_eq_true_eq]; exact hc.2⟩
    have hminu := hmin e.1 h1U
    have hfwd := hOfwd e he
    rw [hc.1] at hfwd
    omega
  rw [this]
  rfl

theorem loopRun_completes (P : Pipeline) (instr : Instrument) (t : Int)
    (ord : List Nat)
    (hwf : EdgesWF P.nodes.length P.edges)
    (hOfwd : ∀ e ∈ P.edges, ord.indexOf e.1 < ord.indexOf e.2) :
    ∀ (fuel : Nat) (degs : List Nat) (q : List (Option Nat)) (tr : List Nat)
      (st : Store) (evs : List FeatureEvent),
      LoopInv P.nodes.length P.edges degs q tr →
      loopPhi P.nodes.length degs q tr < fuel →
      ∃ ext : List Nat,
        loopRun P instr t fuel degs q st evs tr =
          some ⟨(replayFrom P instr t (st, evs) ext).1,
                (replayFrom P instr t (st, evs) ext).2, tr ++ ext⟩ ∧
        (tr ++ ext).Nodup ∧
        (∀ x, x ∈ tr ++ ext ↔ x < P.nodes.length) := by
  intro fuel
  induction fuel with
  | zero =>
      intro degs q tr st evs _ hphi
      omega
  | succ f ih =>
      intro degs q tr st evs hinv hphi
      obtain ⟨hdeg, htrN, htrLt, hPC, hready, hsome, hqN, hnone, hsplit,
        hcompl⟩ := hinv
      match q with
      | [] =>
          exfalso
          by_cases hall : ∀ j, j < P.nodes.length → j ∈ tr
          · cases hcompl hall
          · push_neg at hall
            obtain ⟨j0, hj0, hj0tr⟩ := hall
            obtain ⟨j, hjn, hjtr, hjdeg⟩ := exists_ready_unprocessed
              P.nodes.length P.edges ord tr hOfwd hwf j0 hj0 hj0tr
            cases hready j hjn hjtr hjdeg
      | none :: rest =>
          refine ⟨[], ?_, by simpa using htrN, ?_⟩
          · have hstep : loopRun P instr t (f + 1) degs (none :: rest) st
                evs tr = some ⟨st, evs, tr⟩ := rfl
            rw [hstep]
            simp [replayFrom]
          · -- at the sentinel, every node is processed
            have hqallnone : ∀ m ∈ (none :: rest : List (Option Nat)),
                m = none := by
              obtain ⟨a, b, hab, hasome, hbnone⟩ := hsplit
              cases a with
              | nil =>
                  intro m hm
                  rw [List.nil_append] at hab
                  exact hbnone m (by rw [← hab]; exact hm)
              | cons a0 a' =>
                  exfalso
                  have : a0 = none := by
                    have := congrArg List.head? hab
                    simp at this
                    exact this.symm
                  exact hasome a0 (List.mem_cons_self a0 a') this
            intro x
            simp only [List.append_nil]
            constructor
            · exact fun h => htrLt x h
            · intro hx
              by_contra hxtr
              have hz : ∀ j, (degsOf P.nodes.length P.edges tr).getD j 0 = 0 :=
                degsOf_zero_of_sources _ _ _
                  (hnone (List.mem_cons_self none rest))
              have := hready x hx hxtr (hz x)
              have := hqallnone _ this
              cases this
      | some ix :: rest =>
          obtain ⟨hixn, hixtr, hixdeg⟩ :=
            hsome ix (List.mem_cons_self (some ix) rest)
          have hcap : ∀ j, (outNeighbors P.edges ix).count j ≤
              degs.getD j 0 := by
            intro j
            rw [hdeg]
            exact outNeighbors_cap _ _ _ _ hixtr hwf j
          -- the updated in-degree array is degsOf of the extended trace
          have hdeg' : (decMany degs (outNeighbors P.edges ix)).1 =
              degsOf P.nodes.length P.edges (tr ++ [ix]) := by
            apply List.ext_getElem
            · rw [decMany_length, hdeg, degsOf_length, degsOf_length]
            · intro j h1 h2
              rw [← List.getD_eq_getElem _ 0 h1, ← List.getD_eq_getElem _ 0 h2]
              rw [decMany_getD, hdeg]
              have hjn : j < P.nodes.length := by
                rw [decMany_length, hdeg, degsOf_length] at h1
                exact h1
              rw [degsOf_append _ _ _ _ hixtr _ hjn]
          have hstep : loopRun P instr t (f + 1) degs (some ix :: rest) st evs
              tr =
            loopRun P instr t f (decMany degs (outNeighbors P.edges ix)).1
              (rest ++ (decMany degs (outNeighbors P.edges ix)).2.map some ++
                (if (decMany degs (outNeighbors P.edges ix)).1.all
                    (fun d => d == 0) then [none] else []))
              (stepIx P instr t ix (st, evs)).1
              (stepIx P instr t ix (st, evs)).2 (tr ++ [ix]) := rfl
          -- ready nodes are exactly the newly zero out-neighbors
          have hrc := decMany_ready_count (outNeighbors P.edges ix) degs hcap
          have hr2mem : ∀ j, j ∈ (decMany degs (outNeighbors P.edges ix)).2 ↔
              (j ∈ outNeighbors P.edges ix ∧
                (degsOf P.nodes.length P.edges (tr ++ [ix])).getD j 0 = 0) := by
            intro j
            rw [← hdeg']
            constructor
            · intro hj
              have := hrc j
              rcases List.count_pos_iff.mpr hj with hpos
              by_cases hc : j ∈ outNeighbors P.edges ix ∧
                  (decMany degs (outNeighbors P.edges ix)).1.getD j 0 = 0
              · exact hc
              · rw [if_neg hc] at this
                omega
            · intro hc
              apply List.count_pos_iff.mp
              rw [hrc j, if_pos hc]
              omega
          have hr2N : (decMany degs (outNeighbors P.edges ix)).2.Nodup := by
            rw [List.nodup_iff_count_le_one]
            intro j
            rw [hrc j]
            by_cases hc : j ∈ outNeighbors P.edges ix ∧
                (decMany degs (outNeighbors P.edges ix)).1.getD j 0 = 0
            · rw [if_pos hc]
            · rw [if_neg hc]
              omega
          have hneigh : ∀ j ∈ outNeighbors P.edges ix,
              j < P.nodes.length ∧ j ∉ tr ∧ j ≠ ix ∧
                0 < (degsOf P.nodes.length P.edges tr).getD j 0 := by
            intro j hj
            rcases (mem_outNeighbors _ _ _).mp hj with ⟨e, he, he1, he2⟩
            have hjn : j < P.nodes.length := he2 ▸ (hwf e he).2
            refine ⟨hjn, ?_, ?_, ?_⟩
            · intro hjtr
              exact hixtr (he1 ▸ hPC e he (he2.symm ▸ hjtr))
            · intro hjix
              have hee : e = (ix, ix) := by
                have he' : e = (e.1, e.2) := rfl
                rw [he', he1, he2, hjix]
              rw [hee] at he
              exact lt_irrefl _ (hOfwd (ix, ix) he)
            · exact he2 ▸ degsOf_pos_of_edge _ _ _ e he (he1.symm ▸ hixtr)
                (hwf e he).2
          -- the trace extension is well-formed
          have htrN' : (tr ++ [ix]).Nodup := by
            rw [List.nodup_append]
            refine ⟨htrN, List.nodup_singleton ix, ?_⟩
            intro a ha hax
            rw [List.mem_singleton.mp hax] at ha
            exact hixtr ha
          have htrLt' : ∀ i ∈ tr ++ [ix], i < P.nodes.length := by
            intro i hi
            rcases List.mem_append.mp hi with h | h
            · exact htrLt i h
            · rw [List.mem_singleton.mp h]
              exact hixn
          have hPC' : PredClosed P.edges (tr ++ [ix]) := by
            intro e he h2
            rcases List.mem_append.mp h2 with h | h
            · exact List.mem_append_left _ (hPC e he h)
            · have h2ix : e.2 = ix := List.mem_singleton.mp h
              exact List.mem_append_left _
                (sources_mem_of_deg_zero _ _ _ ix hixn hixdeg e he h2ix)
          -- old pending messages stay valid
          have hrestsome : ∀ j, some j ∈ rest →
              j < P.nodes.length ∧ j ∉ tr ++ [ix] ∧
                (degsOf P.nodes.length P.edges (tr ++ [ix])).getD j 0 = 0 := by
            intro j hj
            obtain ⟨hjn, hjtr, hjdeg⟩ :=
              hsome j (List.mem_cons_of_mem _ hj)
            have hjix : j ≠ ix := by
              intro hq
              have hfm : ((some ix :: rest : List (Option Nat)).filterMap
                  id).Nodup := hqN
              simp only [List.filterMap_cons, id] at hfm
              rcases List.nodup_cons.mp hfm with ⟨hnm, _⟩
              exact hnm (hq ▸ List.mem_filterMap.mpr ⟨some j, hj, rfl⟩)
            refine ⟨hjn, ?_, ?_⟩
            · intro hmem
              rcases List.mem_append.mp hmem with h | h
              · exact hjtr h
              · exact hjix (List.mem_singleton.mp h)
            · rw [degsOf_append _ _ _ _ hixtr _ hjn, hjdeg]
              omega
          -- the new channel contents
          have hready' : ∀ j, j < P.nodes.length → j ∉ tr ++ [ix] →
              (degsOf P.nodes.length P.edges (tr ++ [ix])).getD j 0 = 0 →
              some j ∈ rest ++
                (decMany degs (outNeighbors P.edges ix)).2.map some ++
                (if (decMany degs (outNeighbors P.edges ix)).1.all
                    (fun d => d == 0) then [none] else []) := by
            intro j hjn hjtr' hjdeg'
            have hjtr : j ∉ tr := fun h => hjtr' (List.mem_append_left _ h)
            have hjix : j ≠ ix := fun h =>
              hjtr' (List.mem_append_right _ (h ▸ List.mem_singleton_self ix))
            by_cases hold : (degsOf P.nodes.length P.edges tr).getD j 0 = 0
            · have := hready j hjn hjtr hold
              rcases List.mem_cons.mp this with h | h
              · cases Option.some.inj h
                exact absurd rfl hjix
              · exact List.mem_append_left _ (List.mem_append_left _ h)
            · have hcnt : 0 < (outNeighbors P.edges ix).count j := by
                have := degsOf_append P.nodes.length P.edges tr ix hixtr j hjn
                rw [hjdeg'] at this
                omega
              have hjns : j ∈ outNeighbors P.edges ix :=
                List.count_pos_iff.mp hcnt
              have : j ∈ (decMany degs (outNeighbors P.edges ix)).2 :=
                (hr2mem j).mpr ⟨hjns, hjdeg'⟩
              exact List.mem_append_left _ (List.mem_append_right _
                (List.mem_map_of_mem some this))
          have hsome' : ∀ j, some j ∈ rest ++
              (decMany degs (outNeighbors P.edges ix)).2.map some ++
              (if (decMany degs (outNeighbors P.edges ix)).1.all
                  (fun d => d == 0) then [none] else []) →
              j < P.nodes.length ∧ j ∉ tr ++ [ix] ∧
                (degsOf P.nodes.length P.edges (tr ++ [ix])).getD j 0 = 0 := by
            intro j hj
            rcases List.mem_append.mp hj with hj1 | hjs
            · rcases List.mem_append.mp hj1 with hjr | hjm
              · exact hrestsome j hjr
              · rcases List.mem_map.mp hjm with ⟨j0, hj0, hj0e⟩
                cases Option.some.inj hj0e
                obtain ⟨hjns, hjz⟩ := (hr2mem j).mp hj0
                obtain ⟨hjn, hjtr, hjix, _⟩ := hneigh j hjns
                refine ⟨hjn, ?_, hjz⟩
                intro hmem
                rcases List.mem_append.mp hmem with h | h
                · exact hjtr h
                · exact hjix (List.mem_singleton.mp h)
            · exfalso
              by_cases hz : (decMany degs (outNeighbors P.edges ix)).1.all
                  (fun d => d == 0) = true
              · rw [if_pos hz] at hjs
                cases List.mem_singleton.mp hjs
              · rw [if_neg hz] at hjs
                cases hjs
          have hqN' : ((rest ++
              (decMany degs (outNeighbors P.edges ix)).2.map some ++
              (if (decMany degs (outNeighbors P.edges ix)).1.all
                  (fun d => d == 0) then [none] else [])).filterMap
                id).Nodup := by
            rw [List.filterMap_append, List.filterMap_append]
            have hs1 : ((if (decMany degs (outNeighbors P.edges ix)).1.all
                (fun d => d == 0) then ([none] : List (Option Nat))
                else []).filterMap id) = [] := by
              by_cases hz : (decMany degs (outNeighbors P.edges ix)).1.all
                  (fun d => d == 0) = true
              · rw [if_pos hz]
                rfl
              · rw [if_neg hz]
                rfl
            have hs2 : ((decMany degs (outNeighbors P.edges ix)).2.map
                some).filterMap id = (decMany degs (outNeighbors P.edges ix)).2
                := by simp
            rw [hs1, hs2, List.append_nil]
            have hrfN : (rest.filterMap id).Nodup := by
              have hfm := hqN
              simp only [List.filterMap_cons, id] at hfm
              exact (List.nodup_cons.mp hfm).2
            rw [List.nodup_append]
            refine ⟨hrfN, hr2N, ?_⟩
            intro a ha har2
            rcases List.mem_filterMap.mp ha with ⟨o, ho, hoe⟩
            have hoa : o = some a := by
              cases o with
              | none => cases hoe
              | some v => cases hoe; rfl
            rw [hoa] at ho
            have hdz := (hsome a (List.mem_cons_of_mem _ ho)).2.2
            have hpos := (hneigh a ((hr2mem a).mp har2).1).2.2.2
            omega
          have hnone' : none ∈ rest ++
              (decMany degs (outNeighbors P.edges ix)).2.map some ++
              (if (decMany degs (outNeighbors P.edges ix)).1.all
                  (fun d => d == 0) then [none] else []) →
              ∀ e ∈ P.edges, e.1 ∈ tr ++ [ix] := by
            intro hmem e he
            rcases List.mem_append.mp hmem with h1 | hs
            · rcases List.mem_append.mp h1 with hr | hm
              · exact List.mem_append_left _
                  (hnone (List.mem_cons_of_mem _ hr) e he)
              · rcases List.mem_map.mp hm with ⟨v, _, hv⟩
                cases hv
            · by_cases hz : (decMany degs (outNeighbors P.edges ix)).1.all
                  (fun d => d == 0) = true
              · rw [hdeg'] at hz
                exact (degsOf_all_zero_iff _ _ _ hwf).mp hz e he
              · rw [if_neg hz] at hs
                cases hs
          have hsplit' : QueueSplit (rest ++
              (decMany degs (outNeighbors P.edges ix)).2.map some ++
              (if (decMany degs (outNeighbors P.edges ix)).1.all
                  (fun d => d == 0) then [none] else [])) := by
            obtain ⟨a, b, hab, hasome, hbnone⟩ := hsplit
            cases a with
            | nil =>
                exfalso
                rw [List.nil_append] at hab
                have : (none : Option Nat) ∈ (some ix :: rest : List
                    (Option Nat)) := by
                  rw [hab]
                  have hhead : b = (some ix :: rest : List (Option Nat)) :=
                    hab.symm
                  cases b with
                  | nil => cases hab
                  | cons b0 b' =>
                      have := hbnone b0 (List.mem_cons_self b0 b')
                      rw [this] at hab ⊢
                      exact List.mem_cons_self none b'
                rw [hab] at this
                cases b with
                | nil => cases this
                | cons b0 b' =>
                    have hb0 := hbnone b0 (List.mem_cons_self b0 b')
                    have : b0 = some ix := by
                      have := congrArg List.head? hab
                      simp at this
                      exact this.symm
                    rw [hb0] at this
                    cases this
            | cons a0 a' =>
                have ha0 : a0 = some ix := by
                  have := congrArg List.head? hab
                  simp at this
                  exact this.symm
                have hrest2 : rest = a' ++ b := by
                  have := congrArg List.tail hab
                  simpa using this
                have hasome' : ∀ x ∈ a', x ≠ none := fun x hx =>
                  hasome x (List.mem_cons_of_mem a0 hx)
                by_cases hbnil : b = []
                · subst hbnil
                  rw [List.append_nil] at hrest2
                  refine ⟨a' ++ (decMany degs
                      (outNeighbors P.edges ix)).2.map some,
                    (if (decMany degs (outNeighbors P.edges ix)).1.all
                      (fun d => d == 0) then [none] else []), ?_, ?_, ?_⟩
                  · rw [hrest2]
                  · intro x hx
                    rcases List.mem_append.mp hx with h | h
                    · exact hasome' x h
                    · rcases List.mem_map.mp h with ⟨v, _, hv⟩
                      rw [← hv]
                      intro hc
                      cases hc
                  · intro x hx
                    by_cases hz : (decMany degs
                        (outNeighbors P.edges ix)).1.all
                        (fun d => d == 0) = true
                    · rw [if_pos hz] at hx
                      exact List.mem_singleton.mp hx
                    · rw [if_neg hz] at hx
                      cases hx
                · have hnonemem : (none : Option Nat) ∈
                      (some ix :: rest : List (Option Nat)) := by
                    cases b with
                    | nil => exact absurd rfl hbnil
                    | cons b0 b' =>
                        have hb0 := hbnone b0 (List.mem_cons_self b0 b')
                        rw [hab, ← hb0]
                        exact List.mem_append_right _
                          (List.mem_cons_self b0 b')
                  have hsrc := hnone hnonemem
                  have hONnil : outNeighbors P.edges ix = [] := by
                    unfold outNeighbors
                    have : P.edges.filter (fun e => e.1 == ix) = [] := by
                      rw [List.filter_eq_nil_iff]
                      intro e he hc
                      rw [beq_iff_eq] at hc
                      exact hixtr (hc ▸ hsrc e he)
                    rw [this]
                    rfl
                  have hr2nil : (decMany degs
                      (outNeighbors P.edges ix)).2 = [] := by
                    rw [hONnil]
                    rfl
                  refine ⟨a', b ++
                    (if (decMany degs (outNeighbors P.edges ix)).1.all
                      (fun d => d == 0) then [none] else []), ?_, hasome', ?_⟩
                  · rw [hr2nil, List.map_nil, List.append_nil, hrest2,
                      List.append_assoc]
                  · intro x hx
                    rcases List.mem_append.mp hx with h | h
                    · exact hbnone x h
                    · by_cases hz : (decMany degs
                          (outNeighbors P.edges ix)).1.all
                          (fun d => d == 0) = true
                      · rw [if_pos hz] at h
                        exact List.mem_singleton.mp h
                      · rw [if_neg hz] at h
                        cases h
          have hcompl' : (∀ j, j < P.nodes.length → j ∈ tr ++ [ix]) →
              none ∈ rest ++
                (decMany degs (outNeighbors P.edges ix)).2.map some ++
                (if (decMany degs (outNeighbors P.edges ix)).1.all
                    (fun d => d == 0) then [none] else []) := by
            intro hall
            have hz : (decMany degs (outNeighbors P.edges ix)).1.all
                (fun d => d == 0) = true := by
              rw [hdeg']
              rw [degsOf_all_zero_iff _ _ _ hwf]
              intro e he
              exact hall e.1 (hwf e he).1
            rw [if_pos hz]
            exact List.mem_append_right _ (List.mem_singleton_self none)
          have hphi' : loopPhi P.nodes.length
              (decMany degs (outNeighbors P.edges ix)).1
              (rest ++ (decMany degs (outNeighbors P.edges ix)).2.map some ++
                (if (decMany degs (outNeighbors P.edges ix)).1.all
                    (fun d => d == 0) then [none] else []))
              (tr ++ [ix]) < f := by
            have hsum := decMany_sum (outNeighbors P.edges ix) degs hcap
            have hr2len := decMany_ready_length degs (outNeighbors P.edges ix)
            have hsentlen : (if (decMany degs
                (outNeighbors P.edges ix)).1.all (fun d => d == 0)
                then ([none] : List (Option Nat)) else []).length ≤ 1 := by
              by_cases hz : (decMany degs (outNeighbors P.edges ix)).1.all
                  (fun d => d == 0) = true
              · rw [if_pos hz]
                exact Nat.le_refl 1
              · rw [if_neg hz]
                exact Nat.zero_le 1
            have htrlen : tr.length + 1 ≤ P.nodes.length := by
              have hcons : (ix :: tr).Nodup := List.nodup_cons.mpr ⟨hixtr, htrN⟩
              have hbd : ∀ x ∈ ix :: tr, x < P.nodes.length := by
                intro x hx
                rcases List.mem_cons.mp hx with rfl | h
                · exact hixn
                · exact htrLt x h
              have := length_le_of_nodup_lt (ix :: tr) P.nodes.length hcons hbd
              simpa using this
            unfold loopPhi at hphi ⊢
            simp only [List.length_append, List.length_cons, List.length_map,
              List.length_singleton] at hphi ⊢
            omega
          obtain ⟨ext', hrun', hnd', hmem'⟩ := ih
            (decMany degs (outNeighbors P.edges ix)).1
            (rest ++ (decMany degs (outNeighbors P.edges ix)).2.map some ++
              (if (decMany degs (outNeighbors P.edges ix)).1.all
                  (fun d => d == 0) then [none] else []))
            (tr ++ [ix]) (stepIx P instr t ix (st, evs)).1
            (stepIx P instr t ix (st, evs)).2
            ⟨hdeg', htrN', htrLt', hPC', hready', hsome', hqN', hnone',
              hsplit', hcompl'⟩ hphi'
          have hsh : (tr ++ [ix]) ++ ext' = tr ++ ix :: ext' := by
            rw [List.append_assoc]
            rfl
          refine ⟨ix :: ext', ?_, ?_, ?_⟩
          · rw [hstep, hrun']
            have hre : replayFrom P instr t (st, evs) (ix :: ext') =
                replayFrom P instr t (stepIx P instr t ix (st, evs)) ext' :=
              rfl
            rw [hre, ← hsh]
          · rw [← hsh]
            exact hnd'
          · intro x
            rw [← hsh]
            exact hmem' x

theorem fromConfig_inv (nodes : List FeatureNode) (P : Pipeline)
    (h : fromConfig nodes = some P) :
    P.nodes = nodes ∧ buildEdges nodes = some P.edges ∧
      toposort nodes.length P.edges = some P.order := by
  unfold fromConfig at h
  cases hE : buildEdges nodes with
  | none =>
      rw [hE] at h
      cases h
  | some edges =>
      rw [hE] at h
      have h' : (match toposort nodes.length edges with
          | none => none
          | some ord => some (⟨nodes, edges, ord⟩ : Pipeline)) = some P := h
      cases hT : toposort nodes.length edges with
      | none =>
          rw [hT] at h'
          cases h'
      | some ord =>
          rw [hT] at h'
          cases Option.some.inj h'
          exact ⟨rfl, rfl, hT⟩

theorem initDegs_eq_degsOf (n : Nat) (edges : List (Nat × Nat)) :
    initDegs n edges = degsOf n edges [] := by
  unfold initDegs degsOf
  apply List.map_congr_left
  intro j _
  congr 1
  apply List.filter_congr
  intro e _
  show (e.2 == j) = (e.2 == j && !(List.contains [] e.1))
  rw [show List.contains [] e.1 = false from rfl]
  rw [Bool.not_false, Bool.and_true]

theorem counts_sum_le (edges : List (Nat × Nat)) :
    ∀ js : List Nat, js.Nodup →
      (js.map (fun j => (edges.filter (fun e => e.2 == j)).length)).sum ≤
        edges.length := by
  suffices h : ∀ (js : List Nat) (es : List (Nat × Nat)), js.Nodup →
      (js.map (fun j => (es.filter (fun e => e.2 == j)).length)).sum ≤
        es.length by
    intro js hjs
    exact h js edges hjs
  intro js
  induction js with
  | nil =>
      intro es _
      simp
  | cons j rest ih =>
      intro es hN
      rcases List.nodup_cons.mp hN with ⟨hjr, hrN⟩
      have hpart := @List.length_eq_length_filter_add (Nat × Nat) es (fun e => e.2 == j)
      have hcongr : ∀ j' ∈ rest,
          (es.filter (fun e => e.2 == j')).length =
            ((es.filter (fun e => !(e.2 == j))).filter
              (fun e => e.2 == j')).length := by
        intro j' hj'
        rw [List.filter_filter]
        congr 1
        apply List.filter_congr
        intro e _
        show (e.2 == j') = (e.2 == j' && !(e.2 == j))
        by_cases h2 : e.2 = j'
        · have hj'j : j' ≠ j := fun hq => hjr (hq ▸ hj')
          have hne : (e.2 == j) = false := by
            rw [beq_eq_false_iff_ne, h2]
            exact hj'j
          rw [hne, Bool.not_false, Bool.and_true]
        · have hF : (e.2 == j') = false := by
            rw [beq_eq_false_iff_ne]
            exact h2
          rw [hF, Bool.false_and]
      have hmapeq : (rest.map
            (fun j' => (es.filter (fun e => e.2 == j')).length)).sum =
          (rest.map (fun j' => ((es.filter (fun e => !(e.2 == j))).filter
            (fun e => e.2 == j')).length)).sum := by
        congr 1
        apply List.map_congr_left
        exact hcongr
      have hrec := ih (es.filter (fun e => !(e.2 == j))) hrN
      simp only [List.map_cons, List.sum_cons]
      omega

/-- C3: on a constructed pipeline, calculate returns normally; every node
(in particular every dependent of a failing node) is processed exactly
once, the result is the replay of the processing trace, and a node whose
calculate errors contributes no FeatureEvent and no store write while its
processing still continues the in-degree/enqueue bookkeeping. -/
theorem node_error_isolation (nodes : List FeatureNode) (P : Pipeline)
    (hP : fromConfig nodes = some P) (hn : 0 < nodes.length)
    (instr : Instrument) (t : Int) (st : Store) :
    ∃ r : LoopRes,
      Pipeline.calc P instr t st = some r ∧
      r.trace.Perm (List.range nodes.length) ∧
      (r.store, r.events) = replayFrom P instr t (st, []) r.trace ∧
      (∀ (nd : FeatureNode) (s : Store) (evs : List FeatureEvent),
        nd.calculate (readFeatures s instr nd.sources t nd.dataType) = none →
          processNode nd instr t s evs = (s, evs)) := by
  obtain ⟨hPn, hE, hT⟩ := fromConfig_inv nodes P hP
  have hlen : P.nodes.length = nodes.length := by rw [hPn]
  have hwf : EdgesWF P.nodes.length P.edges := by
    rw [hlen]
    exact buildEdges_wf nodes P.edges hE
  obtain ⟨hordN, hordmem, hordcl, hordself⟩ :=
    toposort_sound nodes.length P.edges P.order
      (by rw [← hlen]; exact hwf) hT
  have hOfwd : ∀ e ∈ P.edges,
      P.order.indexOf e.1 < P.order.indexOf e.2 := by
    intro e he
    exact topo_indexOf_lt P.edges P.order hordN hordcl hordself e he
      ((hordmem e.2).mpr ((buildEdges_wf nodes P.edges hE e he).2))
  have hdeg0 : initDegs P.nodes.length P.edges =
      degsOf P.nodes.length P.edges [] := initDegs_eq_degsOf _ _
  have hseedmem : ∀ j, some j ∈ seedQueue P.order
      (initDegs P.nodes.length P.edges) ↔
      (j ∈ P.order ∧ (initDegs P.nodes.length P.edges).getD j 0 = 0) := by
    intro j
    unfold seedQueue
    constructor
    · intro h
      rcases List.mem_map.mp h with ⟨j', hj', hje⟩
      cases Option.some.inj hje
      rcases List.mem_filter.mp hj' with ⟨hmem, hpred⟩
      rw [beq_iff_eq] at hpred
      exact ⟨hmem, hpred⟩
    · rintro ⟨h1, h2⟩
      apply List.mem_map_of_mem
      rw [List.mem_filter]
      refine ⟨h1, ?_⟩
      rw [beq_iff_eq]
      exact h2
  have hInv : LoopInv P.nodes.length P.edges
      (initDegs P.nodes.length P.edges)
      (seedQueue P.order (initDegs P.nodes.length P.edges)) [] := by
    refine ⟨hdeg0, List.nodup_nil,
      fun i hi => absurd hi (List.not_mem_nil i),
      fun e _ h2 => absurd h2 (List.not_mem_nil _),
      ?_, ?_, ?_, ?_, ?_, ?_⟩
    · intro j hj _ hjdeg
      rw [hseedmem]
      refine ⟨(hordmem j).mpr (by rw [← hlen]; exact hj), ?_⟩
      rw [hdeg0]
      exact hjdeg
    · intro j hj
      rcases (hseedmem j).mp hj with ⟨h1, h2⟩
      refine ⟨by rw [hlen]; exact (hordmem j).mp h1,
        List.not_mem_nil j, ?_⟩
      rw [← hdeg0]
      exact h2
    · unfold seedQueue
      have : ((P.order.filter (fun j =>
          (initDegs P.nodes.length P.edges).getD j 0 == 0)).map
            some).filterMap id =
          P.order.filter (fun j =>
            (initDegs P.nodes.length P.edges).getD j 0 == 0) := by simp
      rw [this]
      exact hordN.filter _
    · intro hmem
      unfold seedQueue at hmem
      rcases List.mem_map.mp hmem with ⟨_, _, hc⟩
      cases hc
    · refine ⟨seedQueue P.order (initDegs P.nodes.length P.edges), [],
        (List.append_nil _).symm, ?_, fun x hx => absurd hx
          (List.not_mem_nil x)⟩
      intro x hx
      unfold seedQueue at hx
      rcases List.mem_map.mp hx with ⟨v, _, hv⟩
      rw [← hv]
      intro hc
      cases hc
    · intro hall
      exact absurd (hall 0 (by rw [hlen]; exact hn))
        (List.not_mem_nil 0)
  have hphi : loopPhi P.nodes.length (initDegs P.nodes.length P.edges)
      (seedQueue P.order (initDegs P.nodes.length P.edges)) [] <
      calcFuel P := by
    have hseedlen : (seedQueue P.order
        (initDegs P.nodes.length P.edges)).length ≤ P.order.length := by
      unfold seedQueue
      rw [List.length_map]
      exact List.length_filter_le _ _
    have hsum : (initDegs P.nodes.length P.edges).sum ≤ P.edges.length := by
      unfold initDegs
      exact counts_sum_le P.edges (List.range P.nodes.length)
        (List.nodup_range _)
    unfold loopPhi calcFuel
    simp only [List.length_nil]
    omega
  obtain ⟨ext, hrun, hnd, hmem⟩ := loopRun_completes P instr t P.order hwf
    hOfwd (calcFuel P) (initDegs P.nodes.length P.edges)
    (seedQueue P.order (initDegs P.nodes.length P.edges)) [] st [] hInv hphi
  refine ⟨⟨(replayFrom P instr t (st, []) ext).1,
    (replayFrom P instr t (st, []) ext).2, [] ++ ext⟩, ?_, ?_, ?_, ?_⟩
  · exact hrun
  · rw [List.perm_ext_iff_of_nodup hnd (List.nodup_range _)]
    intro a
    rw [hmem a, List.mem_range, hlen]
  · show ((replayFrom P instr t (st, []) ext).1,
      (replayFrom P instr t (st, []) ext).2) =
        replayFrom P instr t (st, []) ([] ++ ext)
    rw [List.nil_append]
  · intro nd s evs h
    unfold processNode
    rw [h]

/-- C3 witness: the error-isolation theorem applied to the concrete
failing-producer configuration. -/
theorem node_error_isolation_witness :
    ∃ r : LoopRes,
      Pipeline.calc (⟨errNodes, [(0, 1)], [0, 1]⟩ : Pipeline) "I" 0
          (fun _ => []) = some r ∧
      r.trace.Perm (List.range errNodes.length) ∧
      (r.store, r.events) = replayFrom
        (⟨errNodes, [(0, 1)], [0, 1]⟩ : Pipeline) "I" 0
        ((fun _ => []), []) r.trace ∧
      (∀ (nd : FeatureNode) (s : Store) (evs : List FeatureEvent),
        nd.calculate (readFeatures s "I" nd.sources 0 nd.dataType) = none →
          processNode nd "I" 0 s evs = (s, evs)) :=
  node_error_isolation errNodes (⟨errNodes, [(0, 1)], [0, 1]⟩ : Pipeline) rfl
    (by decide) "I" 0 (fun _ => [])


theorem applyWrites_snd (instr : Instrument) (t : Int) :
    ∀ (ws : List (FeatureId × FVal)) (st : Store) (evs : List FeatureEvent),
    (applyWrites instr t ws st evs).2 =
      evs ++ ws.map (fun w => (⟨w.1, instr, t, w.2⟩ : FeatureEvent))
  | [], st, evs => by simp [applyWrites]
  | (id, v) :: rest, st, evs => by
      simp [applyWrites, applyWrites_snd instr t rest]

theorem applyWrites_fst (instr : Instrument) (t : Int) :
    ∀ (ws : List (FeatureId × FVal)) (st : Store) (evs : List FeatureEvent)
      (key : Instrument × FeatureId),
    (applyWrites instr t ws st evs).1 key =
      ws.foldl
        (fun b w => if key = (instr, w.1) then insertB t w.2 b else b) (st key)
  | [], _, _, _ => rfl
  | (id, v) :: rest, st, evs, key => by
      have h := applyWrites_fst instr t rest
        (storeInsert ⟨id, instr, t, v⟩ st) (evs ++ [⟨id, instr, t, v⟩]) key
      simp only [applyWrites, List.foldl_cons]
      rw [h]
      simp [storeInsert]

theorem foldl_ins_untouched (instr : Instrument) (t : Int)
    (key : Instrument × FeatureId) :
    ∀ (ws : List (FeatureId × FVal)) (b : Bucket),
    (∀ w ∈ ws, key ≠ (instr, w.1)) →
    ws.foldl (fun b w => if key = (instr, w.1) then insertB t w.2 b else b) b
      = b
  | [], _, _ => rfl
  | w :: rest, b, h => by
      simp only [List.foldl_cons, if_neg (h w (List.mem_cons_self w rest))]
      exact foldl_ins_untouched instr t key rest b
        (fun w' hw' => h w' (List.mem_cons_of_mem w hw'))

theorem stepIx_eq (P : Pipeline) (instr : Instrument) (t : Int) (ix : Nat)
    (acc : Store × List FeatureEvent) :
    stepIx P instr t ix acc =
      applyWrites instr t (writesAt P instr t ix acc.1) acc.1 acc.2 := by
  unfold stepIx writesAt
  cases hnd : P.nodes[ix]? with
  | none => simp [applyWrites]
  | some nd =>
      unfold processNode writesOfN
      cases hc : nd.calculate (readFeatures acc.1 instr nd.sources t nd.dataType) with
      | none => simp [hc, applyWrites]
      | some ws => simp [hc]

theorem stepIx_snd (P : Pipeline) (instr : Instrument) (t : Int) (ix : Nat)
    (acc : Store × List FeatureEvent) :
    (stepIx P instr t ix acc).2 =
      acc.2 ++ (writesAt P instr t ix acc.1).map
        (fun w => (⟨w.1, instr, t, w.2⟩ : FeatureEvent)) := by
  rw [stepIx_eq, applyWrites_snd]

theorem stepIx_fst_evs (P : Pipeline) (instr : Instrument) (t : Int) (ix : Nat)
    (st : Store) (e1 e2 : List FeatureEvent) :
    (stepIx P instr t ix (st, e1)).1 = (stepIx P instr t ix (st, e2)).1 := by
  rw [stepIx_eq, stepIx_eq]
  funext key
  rw [applyWrites_fst, applyWrites_fst]

theorem replayFrom_append (P : Pipeline) (instr : Instrument) (t : Int)
    (acc : Store × List FeatureEvent) (l1 l2 : List Nat) :
    replayFrom P instr t acc (l1 ++ l2) =
      replayFrom P instr t (replayFrom P instr t acc l1) l2 :=
  List.foldl_append _ _ _ _

theorem accRel_refl (x : Store × List FeatureEvent) : AccRel x x :=
  ⟨rfl, List.Perm.refl _⟩

theorem accRel_trans {x y z : Store × List FeatureEvent}
    (h1 : AccRel x y) (h2 : AccRel y z) : AccRel x z :=
  ⟨h1.1.trans h2.1, h1.2.trans h2.2⟩

theorem stepIx_rel (P : Pipeline) (instr : Instrument) (t : Int) (ix : Nat)
    {x y : Store × List FeatureEvent} (h : AccRel x y) :
    AccRel (stepIx P instr t ix x) (stepIx P instr t ix y) := by
  obtain ⟨h1, h2⟩ := h
  constructor
  · have hx : (stepIx P instr t ix (x.1, x.2)).1
        = (stepIx P instr t ix (x.1, y.2)).1 := stepIx_fst_evs P instr t ix x.1 x.2 y.2
    have hy : (x.1, y.2) = y := by rw [h1]
    rw [hy] at hx
    exact hx
  · rw [stepIx_snd, stepIx_snd, h1]
    exact h2.append_right _

theorem replay_rel (P : Pipeline) (instr : Instrument) (t : Int) :
    ∀ (l : List Nat) {x y : Store × List FeatureEvent}, AccRel x y →
    AccRel (replayFrom P instr t x l) (replayFrom P instr t y l)
  | [], _, _, h => h
  | ix :: rest, _, _, h =>
      replay_rel P instr t rest (stepIx_rel P instr t ix h)

theorem writesAt_mem_outs (P : Pipeline) (instr : Instrument) (t : Int)
    (hwf : PipelineWF P) (ix : Nat) (st : Store)
    (w : FeatureId × FVal) (hw : w ∈ writesAt P instr t ix st) :
    ∃ nd, P.nodes[ix]? = some nd ∧ w.1 ∈ nd.outs := by
  unfold writesAt at hw
  cases hnd : P.nodes[ix]? with
  | none =>
      rw [hnd] at hw
      have hw' : w ∈ ([] : List (FeatureId × FVal)) := hw
      simp at hw'
  | some nd =>
      rw [hnd] at hw
      have hw' : w ∈ writesOfN nd instr t st := hw
      unfold writesOfN at hw'
      cases hc : nd.calculate (readFeatures st instr nd.sources t nd.dataType) with
      | none => rw [hc] at hw'; simp at hw'
      | some ws =>
          rw [hc] at hw'
          simp only [Option.getD_some] at hw'
          exact ⟨nd, rfl, hwf.1 ix nd hnd _ ws hc w hw'⟩

theorem stepIx_fst_frame (P : Pipeline) (instr : Instrument) (t : Int)
    (hwf : PipelineWF P) (ix : Nat) (acc : Store × List FeatureEvent)
    (key : Instrument × FeatureId)
    (h : ∀ nd, P.nodes[ix]? = some nd → key.1 ≠ instr ∨ key.2 ∉ nd.outs) :
    (stepIx P instr t ix acc).1 key = acc.1 key := by
  rw [stepIx_eq, applyWrites_fst]
  apply foldl_ins_untouched
  intro w hw heq
  obtain ⟨nd, hnd, hout⟩ := writesAt_mem_outs P instr t hwf ix acc.1 w hw
  rcases h nd hnd with h1 | h1
  · rw [heq] at h1; exact h1 rfl
  · rw [heq] at h1; exact h1 hout

theorem readFeatures_congr (st1 st2 : Store) (instr : Instrument)
    (srcs : List NodeId) (t : Int) (qt : QueryType)
    (h : ∀ s ∈ srcs, st1 (instr, s) = st2 (instr, s)) :
    readFeatures st1 instr srcs t qt = readFeatures st2 instr srcs t qt := by
  funext id
  unfold readFeatures
  by_cases hid : id ∈ srcs
  · simp [hid, h id hid]
  · simp [hid]

theorem writesAt_congr (P : Pipeline) (instr : Instrument) (t : Int) (ix : Nat)
    (st1 st2 : Store)
    (h : ∀ nd, P.nodes[ix]? = some nd → ∀ s ∈ nd.sources,
      st1 (instr, s) = st2 (instr, s)) :
    writesAt P instr t ix st1 = writesAt P instr t ix st2 := by
  unfold writesAt
  cases hnd : P.nodes[ix]? with
  | none => rfl
  | some nd =>
      show writesOfN nd instr t st1 = writesOfN nd instr t st2
      unfold writesOfN
      rw [readFeatures_congr st1 st2 instr nd.sources t nd.dataType (h nd hnd)]

theorem stepIx_swap (P : Pipeline) (instr : Instrument) (t : Int)
    (hwf : PipelineWF P) (a b : Nat) (hab : a ≠ b)
    (hEab : (a, b) ∉ P.edges) (hEba : (b, a) ∉ P.edges)
    (acc : Store × List FeatureEvent) :
    AccRel (stepIx P instr t b (stepIx P instr t a acc))
      (stepIx P instr t a (stepIx P instr t b acc)) := by
  have hreadb : ∀ nd, P.nodes[b]? = some nd → ∀ s ∈ nd.sources,
      (stepIx P instr t a acc).1 (instr, s) = acc.1 (instr, s) := by
    intro ndb hndb s hs
    apply stepIx_fst_frame P instr t hwf
    intro nda hnda
    right
    intro hout
    exact hEab (hwf.2.2 a b nda ndb hnda hndb s hs hout)
  have hreada : ∀ nd, P.nodes[a]? = some nd → ∀ s ∈ nd.sources,
      (stepIx P instr t b acc).1 (instr, s) = acc.1 (instr, s) := by
    intro nda hnda s hs
    apply stepIx_fst_frame P instr t hwf
    intro ndb hndb
    right
    intro hout
    exact hEba (hwf.2.2 b a ndb nda hndb hnda s hs hout)
  have hwb : writesAt P instr t b (stepIx P instr t a acc).1
      = writesAt P instr t b acc.1 :=
    writesAt_congr P instr t b _ _ (fun nd hnd s hs => hreadb nd hnd s hs)
  have hwa : writesAt P instr t a (stepIx P instr t b acc).1
      = writesAt P instr t a acc.1 :=
    writesAt_congr P instr t a _ _ (fun nd hnd s hs => hreada nd hnd s hs)
  have hdisj : ∀ w1 ∈ writesAt P instr t a acc.1,
      ∀ w2 ∈ writesAt P instr t b acc.1, w1.1 ≠ w2.1 := by
    intro w1 hw1 w2 hw2 heq
    obtain ⟨nda, hnda, houta⟩ := writesAt_mem_outs P instr t hwf a acc.1 w1 hw1
    obtain ⟨ndb, hndb, houtb⟩ := writesAt_mem_outs P instr t hwf b acc.1 w2 hw2
    exact hwf.2.1 a b nda ndb hab hnda hndb w1.1 houta (heq ▸ houtb)
  constructor
  · funext key
    rw [stepIx_eq P instr t b, applyWrites_fst, hwb,
      stepIx_eq P instr t a acc, applyWrites_fst,
      stepIx_eq P instr t a (stepIx P instr t b acc), applyWrites_fst, hwa,
      stepIx_eq P instr t b acc, applyWrites_fst]
    by_cases hA : ∀ w ∈ writesAt P instr t a acc.1, key ≠ (instr, w.1)
    · rw [foldl_ins_untouched instr t key _ _ hA,
        foldl_ins_untouched instr t key _ _ hA]
    · have hB : ∀ w ∈ writesAt P instr t b acc.1, key ≠ (instr, w.1) := by
        push_neg at hA
        obtain ⟨wA, hwA, hkeyA⟩ := hA
        intro wB hwB heq
        rw [hkeyA] at heq
        exact hdisj wA hwA wB hwB (by
          have := congrArg Prod.snd heq
          simpa using this)
      rw [foldl_ins_untouched instr t key _ _ hB,
        foldl_ins_untouched instr t key _ _ hB]
  · rw [stepIx_snd P instr t b, hwb, stepIx_snd P instr t a acc,
      stepIx_snd P instr t a, hwa, stepIx_snd P instr t b acc]
    rw [List.append_assoc, List.append_assoc]
    exact List.Perm.append_left _ List.perm_append_comm

theorem replay_bubble (P : Pipeline) (instr : Instrument) (t : Int)
    (hwf : PipelineWF P) (j : Nat) :
    ∀ (u : List Nat) (acc : Store × List FeatureEvent),
    (∀ x ∈ u, x ≠ j ∧ (x, j) ∉ P.edges ∧ (j, x) ∉ P.edges) →
    AccRel (replayFrom P instr t acc (u ++ [j]))
      (replayFrom P instr t acc (j :: u))
  | [], acc, _ => accRel_refl _
  | x :: u', acc, h => by
      have hx := h x (List.mem_cons_self x u')
      have h1 : AccRel (replayFrom P instr t acc ((x :: u') ++ [j]))
          (replayFrom P instr t (stepIx P instr t j (stepIx P instr t x acc)) u') := by
        have := replay_bubble P instr t hwf j u' (stepIx P instr t x acc)
          (fun y hy => h y (List.mem_cons_of_mem x hy))
        exact this
      have h2 : AccRel (stepIx P instr t j (stepIx P instr t x acc))
          (stepIx P instr t x (stepIx P instr t j acc)) :=
        stepIx_swap P instr t hwf x j hx.1 hx.2.1 hx.2.2 acc
      exact accRel_trans h1 (replay_rel P instr t u' h2)

theorem edgeResp_schedOk (n : Nat) (edges : List (Nat × Nat))
    (sched : List Nat) (h : EdgeResp n edges sched) : SchedOk edges sched := by
  have hnd : sched.Nodup := (h.1.nodup_iff).mpr (List.nodup_range n)
  rw [SchedOk, List.pairwise_iff_getElem]
  intro i j hi hj hij hmem
  have hlt := h.2 (sched[j], sched[i]) hmem
  simp only at hlt
  rw [List.indexOf_getElem hnd j hj, List.indexOf_getElem hnd i hi] at hlt
  omega

theorem replay_perm_invariant (P : Pipeline) (instr : Instrument) (t : Int)
    (hwf : PipelineWF P) :
    ∀ (s2 s1 : List Nat) (acc : Store × List FeatureEvent), s1.Perm s2 →
      s1.Nodup → SchedOk P.edges s1 → SchedOk P.edges s2 →
      AccRel (replayFrom P instr t acc s1) (replayFrom P instr t acc s2)
  | [], s1, acc, hperm, _, _, _ => by
      rw [List.perm_nil.mp hperm]
      exact accRel_refl _
  | j :: s2', s1, acc, hperm, hnd1, hok1, hok2 => by
      have hj : j ∈ s1 := hperm.mem_iff.mpr (List.mem_cons_self j s2')
      obtain ⟨u, v, rfl⟩ := List.append_of_mem hj
      have hndsplit := List.nodup_append.mp hnd1
      have hpw := List.pairwise_append.mp hok1
      have hok2' := List.pairwise_cons.mp hok2
      have hperm' : (u ++ v).Perm s2' :=
        (List.perm_middle.symm.trans hperm).cons_inv
      have hbub : ∀ x ∈ u, x ≠ j ∧ (x, j) ∉ P.edges ∧ (j, x) ∉ P.edges := by
        intro x hx
        have hxne : x ≠ j := by
          intro hcon
          exact hndsplit.2.2 hx (hcon ▸ List.mem_cons_self j v)
        refine ⟨hxne, ?_, ?_⟩
        · have hxs2 : x ∈ s2' := by
            have : x ∈ j :: s2' := hperm.mem_iff.mp
              (List.mem_append.mpr (Or.inl hx))
            rcases List.mem_cons.mp this with h | h
            · exact absurd h hxne
            · exact h
          exact hok2'.1 x hxs2
        · exact hpw.2.2 x hx j (List.mem_cons_self j v)
      have hsub : (u ++ v).Sublist (u ++ j :: v) :=
        (List.sublist_cons_self j v).append_left u
      have hsplit : u ++ j :: v = (u ++ [j]) ++ v := by simp
      rw [hsplit, replayFrom_append]
      have h1 : AccRel (replayFrom P instr t (replayFrom P instr t acc (u ++ [j])) v)
          (replayFrom P instr t (replayFrom P instr t
            (stepIx P instr t j acc) u) v) :=
        replay_rel P instr t v (replay_bubble P instr t hwf j u acc hbub)
      have h2 : AccRel (replayFrom P instr t (stepIx P instr t j acc) (u ++ v))
          (replayFrom P instr t (stepIx P instr t j acc) s2') :=
        replay_perm_invariant P instr t hwf s2' (u ++ v)
          (stepIx P instr t j acc) hperm' (hnd1.sublist hsub)
          (hok1.sublist hsub) hok2'.2
      rw [replayFrom_append] at h2
      exact accRel_trans h1 h2

/-- C5: the determinism claim fails as stated: from_config accepts a
configuration in which two dependency-free nodes write the same feature id,
and two edge-respecting node-atomic interleavings of the same calculate
call, started from the same store with the same arguments, emit different
sets of FeatureEvents (the reading node observes whichever write landed
last). -/
theorem parallel_events_schedule_dependent :
    fromConfig racyNodes =
      some (⟨racyNodes, [(0, 2), (1, 2)], [0, 1, 2]⟩ : Pipeline) ∧
    EdgeResp 3 [(0, 2), (1, 2)] [0, 1, 2] ∧
    EdgeResp 3 [(0, 2), (1, 2)] [1, 0, 2] ∧
    (runSched (⟨racyNodes, [(0, 2), (1, 2)], [0, 1, 2]⟩ : Pipeline) "I" 0
        (fun _ => []) [0, 1, 2]).2.toFinset ≠
      (runSched (⟨racyNodes, [(0, 2), (1, 2)], [0, 1, 2]⟩ : Pipeline) "I" 0
        (fun _ => []) [1, 0, 2]).2.toFinset :=
  ⟨rfl, ⟨by decide, by decide⟩, ⟨by decide, by decide⟩, by decide⟩

/-- C5 (amended): on a from_config-built pipeline whose nodes write only
their declared output ids, whose declared output id sets are pairwise
disjoint, and whose graph has an edge from every writer of a feature id to
every node reading that id, any two edge-respecting node-atomic
interleavings of the same calculate call, started from the same store with
the same arguments, reach the same final store and emit the same multiset
of FeatureEvents, values bit-for-bit equal; only the batch order may
differ. -/
theorem calc_schedule_independent (cfg : List FeatureNode) (P : Pipeline)
    (_hP : fromConfig cfg = some P) (hwf : PipelineWF P)
    (instr : Instrument) (t : Int) (st : Store) (s1 s2 : List Nat)
    (h1 : EdgeResp P.nodes.length P.edges s1)
    (h2 : EdgeResp P.nodes.length P.edges s2) :
    (runSched P instr t st s1).1 = (runSched P instr t st s2).1 ∧
    (runSched P instr t st s1).2.Perm (runSched P instr t st s2).2 := by
  have hperm : s1.Perm s2 := h1.1.trans h2.1.symm
  have hnd : s1.Nodup := (h1.1.nodup_iff).mpr (List.nodup_range _)
  have h := replay_perm_invariant P instr t hwf s2 s1 (st, []) hperm hnd
    (edgeResp_schedOk _ _ _ h1) (edgeResp_schedOk _ _ _ h2)
  exact ⟨h.1, h.2⟩

theorem calc_schedule_independent_witness :
    fromConfig detNodes = some (⟨detNodes, [], [0, 1]⟩ : Pipeline) ∧
    ((runSched (⟨detNodes, [], [0, 1]⟩ : Pipeline) "I" 0 (fun _ => [])
        [0, 1]).1
      = (runSched (⟨detNodes, [], [0, 1]⟩ : Pipeline) "I" 0 (fun _ => [])
        [1, 0]).1 ∧
    (runSched (⟨detNodes, [], [0, 1]⟩ : Pipeline) "I" 0 (fun _ => [])
        [0, 1]).2.Perm
      (runSched (⟨detNodes, [], [0, 1]⟩ : Pipeline) "I" 0 (fun _ => [])
        [1, 0]).2) :=
  ⟨rfl,
    calc_schedule_independent detNodes (⟨detNodes, [], [0, 1]⟩ : Pipeline) rfl
      (by
        refine ⟨?_, ?_, ?_⟩
        · intro ix nd hnd resp ws hws w hw
          rcases ix with _ | _ | ix
          · obtain rfl : (⟨"a", [], ["a"], QueryType.latest,
                fun _ => some [("a", FVal.num 1)]⟩ : FeatureNode) = nd :=
              Option.some.inj hnd
            obtain rfl : [("a", FVal.num 1)] = ws := Option.some.inj hws
            simp only [List.mem_singleton] at hw
            subst hw
            simp
          · obtain rfl : (⟨"b", [], ["b"], QueryType.latest,
                fun _ => some [("b", FVal.num 2)]⟩ : FeatureNode) = nd :=
              Option.some.inj hnd
            obtain rfl : [("b", FVal.num 2)] = ws := Option.some.inj hws
            simp only [List.mem_singleton] at hw
            subst hw
            simp
          · exact absurd hnd (by simp [detNodes])
        · intro i j ndi ndj hij hi hj s hsi hsj
          rcases i with _ | _ | i <;> rcases j with _ | _ | j
          · exact absurd rfl hij
          · obtain rfl : (⟨"a", [], ["a"], QueryType.latest,
                fun _ => some [("a", FVal.num 1)]⟩ : FeatureNode) = ndi :=
              Option.some.inj hi
            obtain rfl : (⟨"b", [], ["b"], QueryType.latest,
                fun _ => some [("b", FVal.num 2)]⟩ : FeatureNode) = ndj :=
              Option.some.inj hj
            simp only [List.mem_singleton] at hsi hsj
            rw [hsi] at hsj
            exact absurd hsj (by decide)
          · exact absurd hj (by simp [detNodes])
          · obtain rfl : (⟨"b", [], ["b"], QueryType.latest,
                fun _ => some [("b", FVal.num 2)]⟩ : FeatureNode) = ndi :=
              Option.some.inj hi
            obtain rfl : (⟨"a", [], ["a"], QueryType.latest,
                fun _ => some [("a", FVal.num 1)]⟩ : FeatureNode) = ndj :=
              Option.some.inj hj
            simp only [List.mem_singleton] at hsi hsj
            rw [hsi] at hsj
            exact absurd hsj (by decide)
          · exact absurd rfl hij
          · exact absurd hj (by simp [detNodes])
          · exact absurd hi (by simp [detNodes])
          · exact absurd hi (by simp [detNodes])
          · exact absurd hi (by simp [detNodes])
        · intro i j ndi ndj hi hj s hs hout
          rcases j with _ | _ | j
          · obtain rfl : (⟨"a", [], ["a"], QueryType.latest,
                fun _ => some [("a", FVal.num 1)]⟩ : FeatureNode) = ndj :=
              Option.some.inj hj
            simp at hs
          · obtain rfl : (⟨"b", [], ["b"], QueryType.latest,
                fun _ => some [("b", FVal.num 2)]⟩ : FeatureNode) = ndj :=
              Option.some.inj hj
            simp at hs
          · exact absurd hj (by simp [detNodes]))
      "I" 0 (fun _ => []) [0, 1] [1, 0]
      ⟨by decide, by decide⟩ ⟨by decide, by decide⟩⟩

end Arkin
